import Mathlib

/-!
Verification of the incremental reconciliation ("poll helper") algorithms of
virtinst/pollhelpers.py.

Python dicts are modelled as association lists `List (K × R)` in insertion
order: `dget` is `d[k]` / `k in d`, `dinsert` is `d[k] = v` (overwrite in
place, new keys appended at the end), `ddel` is `del d[k]` (removes the one
entry holding the key), `dkeys`/`dvalues` are `d.keys()` / `list(d.values())`.

Python exceptions are modelled with `Option`: a collaborator function that
raises returns `none`.  A collaborator with internal state (Python closures
are effectful) threads an explicit state `σ`.  Where a source `try/except`
swallows the exception the model continues; where the source has no handler
the model returns `none` for the whole call.
-/

set_option autoImplicit false

namespace PollHelpers

variable {K R Obj W σ : Type}

/-- Lookup of a key in a Python-dict-as-assoc-list (`d[k]`, first match). -/
def dget [DecidableEq K] : List (K × R) → K → Option R
  | [], _ => none
  | (k, v) :: rest, key => if k = key then some v else dget rest key

/-- `k in d`. -/
def dmem [DecidableEq K] (m : List (K × R)) (k : K) : Bool :=
  (dget m k).isSome

/-- `d[k] = v`: overwrite in place when the key exists, else append. -/
def dinsert [DecidableEq K] : List (K × R) → K → R → List (K × R)
  | [], k, v => [(k, v)]
  | (k', v') :: rest, k, v =>
      if k' = k then (k, v) :: rest else (k', v') :: dinsert rest k v

/-- `del d[k]`: removes the entry holding the key (first match). -/
def ddel [DecidableEq K] : List (K × R) → K → List (K × R)
  | [], _ => []
  | (k', v') :: rest, k => if k' = k then rest else (k', v') :: ddel rest k

/-- `list(d.keys())`. -/
def dkeys (m : List (K × R)) : List K := m.map Prod.fst

/-- `list(d.values())`. -/
def dvalues (m : List (K × R)) : List R := m.map Prod.snd

/-- The mutable state of one `_new_poll_helper` / `_old_poll_helper` pass:
the caller's `origmap` (mutated in place by the source), the local dicts
`current` and `new`, and the collaborators' internal state `bs`. -/
structure PollSt (K R σ : Type) where
  origmap : List (K × R)
  current : List (K × R)
  new : List (K × R)
  bs : σ
deriving DecidableEq

/-- Loop body of `_new_poll_helper` for one listed object `obj`:
`connkey = obj.name()`; unknown keys are built (`buildfunc` raising is NOT
caught here, so `none` aborts the whole pass), known keys are moved from
`origmap` into `current`. -/
def new_poll_step [DecidableEq K] (nameOf : Obj → K)
    (buildfunc : Obj → K → σ → Option (R × σ))
    (st : PollSt K R σ) (obj : Obj) : Option (PollSt K R σ) :=
  let connkey := nameOf obj
  match dget st.origmap connkey with
  | none =>
      match buildfunc obj connkey st.bs with
      | none => none
      | some (r, s') =>
          some { st with current := dinsert st.current connkey r,
                         new := dinsert st.new connkey r,
                         bs := s' }
  | some r =>
      some { st with current := dinsert st.current connkey r,
                     origmap := ddel st.origmap connkey }

/-- The `for obj in objs` loop of `_new_poll_helper`. -/
def new_poll_loop [DecidableEq K] (nameOf : Obj → K)
    (buildfunc : Obj → K → σ → Option (R × σ)) :
    List Obj → PollSt K R σ → Option (PollSt K R σ)
  | [], st => some st
  | obj :: rest, st =>
      match new_poll_step nameOf buildfunc st obj with
      | none => none
      | some st' => new_poll_loop nameOf buildfunc rest st'

/-- `_new_poll_helper` up to (but not including) the final
`(list(origmap.values()), list(new.values()), list(current.values()))`
projection: `listres = none` models `listfunc()` raising, which the source
catches, leaving `objs = []`. -/
def new_poll_run [DecidableEq K] (nameOf : Obj → K)
    (origmap : List (K × R)) (listres : Option (List Obj))
    (buildfunc : Obj → K → σ → Option (R × σ)) (s0 : σ) :
    Option (PollSt K R σ) :=
  new_poll_loop nameOf buildfunc (listres.getD []) ⟨origmap, [], [], s0⟩

/-- `_new_poll_helper`: the returned triple `(removed, new, current)`,
paired with the collaborators' final state. -/
def new_poll_helper [DecidableEq K] (nameOf : Obj → K)
    (origmap : List (K × R)) (listres : Option (List Obj))
    (buildfunc : Obj → K → σ → Option (R × σ)) (s0 : σ) :
    Option ((List R × List R × List R) × σ) :=
  (new_poll_run nameOf origmap listres buildfunc s0).map fun st =>
    ((dvalues st.origmap, dvalues st.new, dvalues st.current), st.bs)

/-- `check_obj` of `_old_poll_helper`, together with the `try/except`
around its call site: a raising `lookup_func` is caught inside `check_obj`
(key skipped), a raising `build_func` is caught by the caller's
`try: check_obj(name) except: ...` (key also skipped, but the state
effects of the successful lookup persist). -/
def check_obj [DecidableEq K]
    (lookup_func : K → σ → Option (Obj × σ))
    (build_func : Obj → K → σ → Option (R × σ))
    (st : PollSt K R σ) (name : K) : PollSt K R σ :=
  let connkey := name
  match dget st.origmap connkey with
  | none =>
      match lookup_func name st.bs with
      | none => st
      | some (obj, s1) =>
          match build_func obj connkey s1 with
          | none => { st with bs := s1 }
          | some (r, s2) =>
              { st with current := dinsert st.current connkey r,
                        new := dinsert st.new connkey r,
                        bs := s2 }
  | some r =>
      { st with current := dinsert st.current connkey r,
                origmap := ddel st.origmap connkey }

/-- `_old_poll_helper` up to the final values projection: the two name
listings (`none` models the listing call raising, caught and treated as
`[]`), then `check_obj` over `newActiveNames + newInactiveNames`. -/
def old_poll_run [DecidableEq K] (origmap : List (K × R))
    (activeRes inactiveRes : Option (List K))
    (lookup_func : K → σ → Option (Obj × σ))
    (build_func : Obj → K → σ → Option (R × σ)) (s0 : σ) : PollSt K R σ :=
  (activeRes.getD [] ++ inactiveRes.getD []).foldl
    (check_obj lookup_func build_func) ⟨origmap, [], [], s0⟩

/-- `_old_poll_helper`: the returned triple `(removed, new, current)`
paired with the collaborators' final state. -/
def old_poll_helper [DecidableEq K] (origmap : List (K × R))
    (activeRes inactiveRes : Option (List K))
    (lookup_func : K → σ → Option (Obj × σ))
    (build_func : Obj → K → σ → Option (R × σ)) (s0 : σ) :
    (List R × List R × List R) × σ :=
  let st := old_poll_run origmap activeRes inactiveRes lookup_func build_func s0
  ((dvalues st.origmap, dvalues st.new, dvalues st.current), st.bs)

/-- Legacy branch of `fetch_volumes`: `_old_poll_helper` with an
`inactive_list` that always returns `[]` (it never raises, hence
`some []`). -/
def fetch_volumes_old [DecidableEq K] (origmap : List (K × R))
    (activeRes : Option (List K))
    (lookup_func : K → σ → Option (Obj × σ))
    (build_func : Obj → K → σ → Option (R × σ)) (s0 : σ) : PollSt K R σ :=
  old_poll_run origmap activeRes (some []) lookup_func build_func s0

/-- Legacy branch of `fetch_nodedevs`: `_old_poll_helper` with
`active_list = backend.listDevices(None, 0)` and an `inactive_list` that
always returns `[]`. -/
def fetch_nodedevs_old [DecidableEq K] (origmap : List (K × R))
    (activeRes : Option (List K))
    (lookup_func : K → σ → Option (Obj × σ))
    (build_func : Obj → K → σ → Option (R × σ)) (s0 : σ) : PollSt K R σ :=
  old_poll_run origmap activeRes (some []) lookup_func build_func s0

/-- State of one `_old_fetch_vms` pass (the caller's `origmap` plus the
local `current` and `new` dicts). -/
structure VMSt (K R : Type) where
  origmap : List (K × R)
  current : List (K × R)
  new : List (K × R)
deriving DecidableEq

/-- `add_vm` of `_old_fetch_vms`: `current[vm.get_name()] = vm` followed by
the UNGUARDED `del origmap[vm.get_name()]` — when the key is absent the
`KeyError` is not caught anywhere in `_old_fetch_vms`, so the whole call
raises (`none`). -/
def add_vm [DecidableEq K] (get_name : R → K)
    (st : VMSt K R) (vm : R) : Option (VMSt K R) :=
  let connkey := get_name vm
  let st' := { st with current := dinsert st.current connkey vm }
  if dmem st'.origmap connkey then
    some { st' with origmap := ddel st'.origmap connkey }
  else
    none

/-- `check_new` of `_old_fetch_vms`: a key found in `origmap` is reused
(moved to `current`), otherwise the record is built (`build_func` raising
is caught by the surrounding `try`, skipping the key). -/
def check_new [DecidableEq K] (build_func : W → K → Option R)
    (st : VMSt K R) (rawvm : W) (connkey : K) : VMSt K R :=
  match dget st.origmap connkey with
  | some vm =>
      { st with origmap := ddel st.origmap connkey,
                current := dinsert st.current connkey vm }
  | none =>
      match build_func rawvm connkey with
      | none => st
      | some vm =>
          { st with new := dinsert st.new connkey vm,
                    current := dinsert st.current connkey vm }

/-- Build `oldActiveIDs` and `oldInactiveNames` from `origmap.values()`
(`_old_fetch_vms` lines 194-199). -/
def build_old_maps [DecidableEq K] (is_active : R → Bool) (get_id : R → Nat)
    (get_name : R → K) (origmap : List (K × R)) :
    List (Nat × R) × List (K × R) :=
  origmap.foldl
    (fun acc p =>
      if is_active p.2 then (dinsert acc.1 (get_id p.2) p.2, acc.2)
      else (acc.1, dinsert acc.2 (get_name p.2) p.2))
    ([], [])

/-- `foldl` over a step function that can raise an uncaught exception. -/
def foldl_opt {α β : Type} (f : α → β → Option α) : List β → α → Option α
  | [], a => some a
  | b :: rest, a =>
      match f a b with
      | none => none
      | some a' => foldl_opt f rest a'

/-- One iteration of the `for _id in newActiveIDs` loop of
`_old_fetch_vms`: a matching `oldActiveIDs` entry is retained via `add_vm`
(outside any `try`), otherwise `lookupByID` / `vm.name()` / `check_new`
run inside a `try` whose failures are logged and skipped. -/
def vm_active_step [DecidableEq K] (get_name : R → K)
    (lookupByID : Nat → Option W) (rawName : W → K)
    (build_func : W → K → Option R) (oldActiveIDs : List (Nat × R))
    (st : VMSt K R) (i : Nat) : Option (VMSt K R) :=
  match dget oldActiveIDs i with
  | some vm => add_vm get_name st vm
  | none =>
      match lookupByID i with
      | none => some st
      | some raw => some (check_new build_func st raw (rawName raw))

/-- One iteration of the `for name in newInactiveNames` loop of
`_old_fetch_vms`. -/
def vm_inactive_step [DecidableEq K] (get_name : R → K)
    (lookupByName : K → Option W)
    (build_func : W → K → Option R) (oldInactiveNames : List (K × R))
    (st : VMSt K R) (name : K) : Option (VMSt K R) :=
  match dget oldInactiveNames name with
  | some vm => add_vm get_name st vm
  | none =>
      match lookupByName name with
      | none => some st
      | some raw => some (check_new build_func st raw name)

/-- `_old_fetch_vms` up to the final values projection.  `activeRes` /
`inactiveRes` are the results of `listDomainsID()` / `listDefinedDomains()`
(`none` = the call raised, caught and treated as `[]`); `lookupByID` /
`lookupByName` return `none` when they raise (caught, key skipped);
`none` as overall result models the uncaught `KeyError` of `add_vm`. -/
def old_fetch_vms [DecidableEq K] (is_active : R → Bool) (get_id : R → Nat)
    (get_name : R → K) (origmap : List (K × R))
    (activeRes : Option (List Nat)) (inactiveRes : Option (List K))
    (lookupByID : Nat → Option W) (rawName : W → K)
    (lookupByName : K → Option W)
    (build_func : W → K → Option R) : Option (VMSt K R) :=
  let maps := build_old_maps is_active get_id get_name origmap
  match foldl_opt (vm_active_step get_name lookupByID rawName build_func maps.1)
      (activeRes.getD []) ⟨origmap, [], []⟩ with
  | none => none
  | some st1 =>
      foldl_opt (vm_inactive_step get_name lookupByName build_func maps.2)
        (inactiveRes.getD []) st1

/-! ### Dictionary lemmas -/

variable [DecidableEq K]

theorem mem_dkeys {m : List (K × R)} {k : K} :
    k ∈ dkeys m ↔ (dget m k).isSome := by
  induction m with
  | nil => simp [dkeys, dget]
  | cons p rest ih =>
      obtain ⟨k', v'⟩ := p
      by_cases h : k' = k
      · subst h; simp [dkeys, dget]
      · have h' : ¬ k = k' := fun hh => h hh.symm
        simpa [dkeys, dget, h, h'] using ih

theorem dget_eq_none_of_not_mem {m : List (K × R)} {k : K} (h : k ∉ dkeys m) :
    dget m k = none := by
  have := (not_iff_not.mpr (mem_dkeys (m := m) (k := k))).mp h
  cases hg : dget m k with
  | none => rfl
  | some v => rw [hg] at this; simp at this

theorem dget_isSome_of_mem {m : List (K × R)} {k : K} (h : k ∈ dkeys m) :
    (dget m k).isSome := mem_dkeys.mp h

theorem dget_dinsert_self (m : List (K × R)) (k : K) (v : R) :
    dget (dinsert m k v) k = some v := by
  induction m with
  | nil => simp [dinsert, dget]
  | cons p rest ih =>
      obtain ⟨k', v'⟩ := p
      by_cases h : k' = k
      · simp [dinsert, dget, h]
      · simp [dinsert, dget, h, ih]

theorem dget_dinsert_ne {k' k : K} (h : k' ≠ k) (m : List (K × R)) (v : R) :
    dget (dinsert m k v) k' = dget m k' := by
  have h' : ¬ k = k' := fun hh => h hh.symm
  induction m with
  | nil => simp [dinsert, dget, h']
  | cons p rest ih =>
      obtain ⟨k'', v''⟩ := p
      by_cases h2 : k'' = k
      · subst h2
        simp [dinsert, dget, h']
      · simp [dinsert, dget, h2, ih]

theorem mem_dkeys_dinsert {m : List (K × R)} {k k' : K} {v : R} :
    k' ∈ dkeys (dinsert m k v) ↔ k' = k ∨ k' ∈ dkeys m := by
  by_cases h : k' = k
  · subst h
    simp [mem_dkeys, dget_dinsert_self]
  · simp [h, mem_dkeys, dget_dinsert_ne h]

theorem dget_ddel_ne {k' k : K} (h : k' ≠ k) (m : List (K × R)) :
    dget (ddel m k) k' = dget m k' := by
  induction m with
  | nil => simp [ddel]
  | cons p rest ih =>
      obtain ⟨k'', v''⟩ := p
      by_cases h2 : k'' = k
      · subst h2
        have h' : ¬ k'' = k' := fun hh => h hh.symm
        simp [ddel, dget, h']
      · simp [ddel, dget, h2, ih]

theorem mem_dkeys_ddel_ne {k' k : K} (h : k' ≠ k) {m : List (K × R)} :
    k' ∈ dkeys (ddel m k) ↔ k' ∈ dkeys m := by
  simp [mem_dkeys, dget_ddel_ne h]

theorem ddel_eq_filter {m : List (K × R)} {k : K} (h : (dkeys m).Nodup) :
    ddel m k = m.filter (fun p => decide (p.1 ≠ k)) := by
  induction m with
  | nil => simp [ddel]
  | cons p rest ih =>
      obtain ⟨k', v'⟩ := p
      rw [dkeys] at h
      simp only [List.map_cons, List.nodup_cons] at h
      by_cases h2 : k' = k
      · subst h2
        have hkeep : List.filter (fun p => decide (p.1 ≠ k')) rest = rest :=
          List.filter_eq_self.mpr (by
            intro p hp
            have hmem : p.1 ∈ dkeys rest := List.mem_map.mpr ⟨p, hp, rfl⟩
            simp only [decide_eq_true_eq]
            intro hh
            exact h.1 (hh ▸ hmem))
        have hL : ddel ((k', v') :: rest) k' = rest := by simp [ddel]
        have hR : List.filter (fun p => decide (p.1 ≠ k')) ((k', v') :: rest)
            = List.filter (fun p => decide (p.1 ≠ k')) rest := by
          rw [List.filter_cons]
          simp
        rw [hL, hR, hkeep]
      · simp [ddel, h2, ih h.2]

theorem dkeys_dinsert_nodup {m : List (K × R)} {k : K} {v : R}
    (h : (dkeys m).Nodup) : (dkeys (dinsert m k v)).Nodup := by
  induction m with
  | nil => simp [dinsert, dkeys]
  | cons p rest ih =>
      obtain ⟨k', v'⟩ := p
      rw [dkeys] at h
      simp only [List.map_cons, List.nodup_cons] at h
      by_cases h2 : k' = k
      · subst h2
        simpa [dinsert, dkeys] using h
      · rw [dinsert]
        simp only [h2, if_false]
        have : dkeys ((k', v') :: dinsert rest k v) =
            k' :: dkeys (dinsert rest k v) := rfl
        rw [this, List.nodup_cons]
        constructor
        · intro hmem
          rcases mem_dkeys_dinsert.mp hmem with h3 | h3
          · exact h2 h3
          · exact h.1 h3
        · exact ih h.2

theorem dkeys_ddel_nodup {m : List (K × R)} {k : K}
    (h : (dkeys m).Nodup) : (dkeys (ddel m k)).Nodup := by
  rw [ddel_eq_filter h]
  exact ((List.filter_sublist m).map Prod.fst).nodup h

theorem filter_keys_cons_of_not_mem {m : List (K × R)} {a : K}
    (h : a ∉ dkeys m) (l : List K) :
    m.filter (fun p => decide (p.1 ∉ a :: l)) =
      m.filter (fun p => decide (p.1 ∉ l)) := by
  apply List.filter_congr
  intro p hp
  have hne : p.1 ≠ a := by
    intro hh
    exact h (hh ▸ List.mem_map.mpr ⟨p, hp, rfl⟩)
  simp [List.mem_cons, hne]

theorem ddel_filter_keys_cons {m : List (K × R)} {a : K}
    (h : (dkeys m).Nodup) (l : List K) :
    (ddel m a).filter (fun p => decide (p.1 ∉ l)) =
      m.filter (fun p => decide (p.1 ∉ a :: l)) := by
  rw [ddel_eq_filter h, List.filter_filter]
  apply List.filter_congr
  intro p hp
  simp only [List.mem_cons, Bool.and_eq_true, decide_eq_true_eq]
  by_cases h1 : p.1 = a
  · simp [h1]
  · by_cases h2 : p.1 ∈ l <;> simp [h1, h2]

theorem not_mem_dkeys_of_dget_none {m : List (K × R)} {k : K}
    (h : dget m k = none) : k ∉ dkeys m := by
  intro hmem
  have := mem_dkeys.mp hmem
  rw [h] at this
  simp at this

theorem count_filter_nodup {l : List K} (h : l.Nodup) (p : K → Bool) (k : K) :
    (l.filter p).count k = if k ∈ l ∧ p k = true then 1 else 0 := by
  by_cases hm : k ∈ l.filter p
  · have hmem := List.mem_filter.mp hm
    rw [List.count_eq_one_of_mem (h.filter p) hm, if_pos hmem]
  · rw [List.count_eq_zero_of_not_mem hm, if_neg]
    intro hc
    exact hm (List.mem_filter.mpr hc)

/-! ### Lemmas about the `_new_poll_helper` loop -/

theorem new_poll_loop_origmap {Obj σ : Type} (nameOf : Obj → K)
    (f : Obj → K → σ → Option (R × σ)) (objs : List Obj) :
    ∀ (st st' : PollSt K R σ),
      new_poll_loop nameOf f objs st = some st' →
      (dkeys st.origmap).Nodup →
      st'.origmap =
        st.origmap.filter (fun p => decide (p.1 ∉ objs.map nameOf)) := by
  induction objs with
  | nil =>
      intro st st' hrun _
      simp only [new_poll_loop, Option.some.injEq] at hrun
      subst hrun
      symm
      apply List.filter_eq_self.mpr
      intro p _
      simp
  | cons obj rest ih =>
      intro st st' hrun hnd
      rw [new_poll_loop] at hrun
      cases hstep : new_poll_step nameOf f st obj with
      | none => rw [hstep] at hrun; cases hrun
      | some st2 =>
          rw [hstep] at hrun
          rw [new_poll_step] at hstep
          cases hget : dget st.origmap (nameOf obj) with
          | some r =>
              rw [hget] at hstep
              simp only [Option.some.injEq] at hstep
              subst hstep
              have hrec := ih _ _ hrun (dkeys_ddel_nodup hnd)
              rw [hrec]
              simpa [List.map_cons] using
                ddel_filter_keys_cons (a := nameOf obj) hnd (rest.map nameOf)
          | none =>
              rw [hget] at hstep
              cases hbuild : f obj (nameOf obj) st.bs with
              | none => rw [hbuild] at hstep; cases hstep
              | some rs =>
                  rw [hbuild] at hstep
                  simp only [Option.some.injEq] at hstep
                  subst hstep
                  have hrec := ih _ _ hrun hnd
                  rw [hrec]
                  simpa [List.map_cons] using
                    (filter_keys_cons_of_not_mem
                      (not_mem_dkeys_of_dget_none hget) (rest.map nameOf)).symm

theorem new_poll_loop_current_mem {Obj σ : Type} (nameOf : Obj → K)
    (f : Obj → K → σ → Option (R × σ)) (objs : List Obj) :
    ∀ (st st' : PollSt K R σ),
      new_poll_loop nameOf f objs st = some st' →
      ∀ k, k ∈ dkeys st'.current ↔
        (k ∈ dkeys st.current ∨ k ∈ objs.map nameOf) := by
  induction objs with
  | nil =>
      intro st st' hrun k
      simp only [new_poll_loop, Option.some.injEq] at hrun
      subst hrun
      simp
  | cons obj rest ih =>
      intro st st' hrun k
      rw [new_poll_loop] at hrun
      cases hstep : new_poll_step nameOf f st obj with
      | none => rw [hstep] at hrun; cases hrun
      | some st2 =>
          rw [hstep] at hrun
          rw [new_poll_step] at hstep
          cases hget : dget st.origmap (nameOf obj) with
          | some r =>
              rw [hget] at hstep
              simp only [Option.some.injEq] at hstep
              subst hstep
              rw [ih _ _ hrun k]
              simp only [List.map_cons, List.mem_cons]
              constructor
              · rintro (hc | hc)
                · rcases mem_dkeys_dinsert.mp hc with h1 | h1
                  · exact Or.inr (Or.inl h1)
                  · exact Or.inl h1
                · exact Or.inr (Or.inr hc)
              · rintro (hc | hc | hc)
                · exact Or.inl (mem_dkeys_dinsert.mpr (Or.inr hc))
                · exact Or.inl (mem_dkeys_dinsert.mpr (Or.inl hc))
                · exact Or.inr hc
          | none =>
              rw [hget] at hstep
              cases hbuild : f obj (nameOf obj) st.bs with
              | none => rw [hbuild] at hstep; cases hstep
              | some rs =>
                  rw [hbuild] at hstep
                  simp only [Option.some.injEq] at hstep
                  subst hstep
                  rw [ih _ _ hrun k]
                  simp only [List.map_cons, List.mem_cons]
                  constructor
                  · rintro (hc | hc)
                    · rcases mem_dkeys_dinsert.mp hc with h1 | h1
                      · exact Or.inr (Or.inl h1)
                      · exact Or.inl h1
                    · exact Or.inr (Or.inr hc)
                  · rintro (hc | hc | hc)
                    · exact Or.inl (mem_dkeys_dinsert.mpr (Or.inr hc))
                    · exact Or.inl (mem_dkeys_dinsert.mpr (Or.inl hc))
                    · exact Or.inr hc

theorem new_poll_loop_current_untouched {Obj σ : Type} (nameOf : Obj → K)
    (f : Obj → K → σ → Option (R × σ)) (objs : List Obj) :
    ∀ (st st' : PollSt K R σ),
      new_poll_loop nameOf f objs st = some st' →
      ∀ k, k ∉ objs.map nameOf →
        dget st'.current k = dget st.current k := by
  induction objs with
  | nil =>
      intro st st' hrun k _
      simp only [new_poll_loop, Option.some.injEq] at hrun
      subst hrun
      rfl
  | cons obj rest ih =>
      intro st st' hrun k hk
      simp only [List.map_cons, List.mem_cons, not_or] at hk
      rw [new_poll_loop] at hrun
      cases hstep : new_poll_step nameOf f st obj with
      | none => rw [hstep] at hrun; cases hrun
      | some st2 =>
          rw [hstep] at hrun
          rw [new_poll_step] at hstep
          cases hget : dget st.origmap (nameOf obj) with
          | some r =>
              rw [hget] at hstep
              simp only [Option.some.injEq] at hstep
              subst hstep
              rw [ih _ _ hrun k (by simpa using hk.2)]
              exact dget_dinsert_ne hk.1 _ _
          | none =>
              rw [hget] at hstep
              cases hbuild : f obj (nameOf obj) st.bs with
              | none => rw [hbuild] at hstep; cases hstep
              | some rs =>
                  rw [hbuild] at hstep
                  simp only [Option.some.injEq] at hstep
                  subst hstep
                  rw [ih _ _ hrun k (by simpa using hk.2)]
                  exact dget_dinsert_ne hk.1 _ _

theorem new_poll_loop_new_mem {Obj σ : Type} (nameOf : Obj → K)
    (f : Obj → K → σ → Option (R × σ)) (objs : List Obj) :
    ∀ (st st' : PollSt K R σ),
      new_poll_loop nameOf f objs st = some st' →
      (dkeys st.origmap).Nodup →
      (objs.map nameOf).Nodup →
      ∀ k, k ∈ dkeys st'.new ↔
        (k ∈ dkeys st.new ∨
          (k ∈ objs.map nameOf ∧ k ∉ dkeys st.origmap)) := by
  induction objs with
  | nil =>
      intro st st' hrun _ _ k
      simp only [new_poll_loop, Option.some.injEq] at hrun
      subst hrun
      simp
  | cons obj rest ih =>
      intro st st' hrun hnd hndF k
      simp only [List.map_cons, List.nodup_cons] at hndF
      rw [new_poll_loop] at hrun
      cases hstep : new_poll_step nameOf f st obj with
      | none => rw [hstep] at hrun; cases hrun
      | some st2 =>
          rw [hstep] at hrun
          rw [new_poll_step] at hstep
          cases hget : dget st.origmap (nameOf obj) with
          | some r =>
              rw [hget] at hstep
              simp only [Option.some.injEq] at hstep
              subst hstep
              rw [ih _ _ hrun (dkeys_ddel_nodup hnd) hndF.2 k]
              have hamem : nameOf obj ∈ dkeys st.origmap :=
                mem_dkeys.mpr (by rw [hget]; rfl)
              simp only [List.map_cons, List.mem_cons]
              by_cases hk : k = nameOf obj
              · subst hk
                simp [hndF.1, hamem]
              · rw [mem_dkeys_ddel_ne hk]
                constructor
                · rintro (hc | hc)
                  · exact Or.inl hc
                  · exact Or.inr ⟨Or.inr hc.1, hc.2⟩
                · rintro (hc | hc)
                  · exact Or.inl hc
                  · rcases hc.1 with h1 | h1
                    · exact absurd h1 hk
                    · exact Or.inr ⟨h1, hc.2⟩
          | none =>
              rw [hget] at hstep
              cases hbuild : f obj (nameOf obj) st.bs with
              | none => rw [hbuild] at hstep; cases hstep
              | some rs =>
                  rw [hbuild] at hstep
                  simp only [Option.some.injEq] at hstep
                  subst hstep
                  rw [ih _ _ hrun hnd hndF.2 k]
                  have hanot : nameOf obj ∉ dkeys st.origmap :=
                    not_mem_dkeys_of_dget_none hget
                  simp only [List.map_cons, List.mem_cons]
                  by_cases hk : k = nameOf obj
                  · subst hk
                    simp [hanot, mem_dkeys_dinsert]
                  · rw [mem_dkeys_dinsert]
                    constructor
                    · rintro ((h1 | h1) | hc)
                      · exact absurd h1 hk
                      · exact Or.inl h1
                      · exact Or.inr ⟨Or.inr hc.1, hc.2⟩
                    · rintro (hc | hc)
                      · exact Or.inl (Or.inr hc)
                      · rcases hc.1 with h1 | h1
                        · exact absurd h1 hk
                        · exact Or.inr ⟨h1, hc.2⟩

theorem new_poll_loop_total {Obj σ : Type} (nameOf : Obj → K)
    (g : Obj → K → σ → R × σ) (objs : List Obj) :
    ∀ (st : PollSt K R σ), ∃ st',
      new_poll_loop nameOf (fun o k s => some (g o k s)) objs st =
        some st' := by
  induction objs with
  | nil => intro st; exact ⟨st, rfl⟩
  | cons obj rest ih =>
      intro st
      rw [new_poll_loop]
      cases hget : dget st.origmap (nameOf obj) with
      | some r =>
          obtain ⟨st', hst'⟩ := ih
            { st with current := dinsert st.current (nameOf obj) r,
                      origmap := ddel st.origmap (nameOf obj) }
          exact ⟨st', by rw [new_poll_step]; rw [hget]; exact hst'⟩
      | none =>
          obtain ⟨st', hst'⟩ := ih
            { st with
                current := dinsert st.current (nameOf obj)
                  (g obj (nameOf obj) st.bs).1,
                new := dinsert st.new (nameOf obj)
                  (g obj (nameOf obj) st.bs).1,
                bs := (g obj (nameOf obj) st.bs).2 }
          exact ⟨st', by rw [new_poll_step]; rw [hget]; exact hst'⟩

theorem new_poll_loop_retained_get {Obj σ : Type} (nameOf : Obj → K)
    (f : Obj → K → σ → Option (R × σ)) (objs : List Obj) :
    ∀ (st st' : PollSt K R σ),
      new_poll_loop nameOf f objs st = some st' →
      (dkeys st.origmap).Nodup →
      (objs.map nameOf).Nodup →
      ∀ k, k ∈ dkeys st.origmap → k ∈ objs.map nameOf →
        dget st'.current k = dget st.origmap k := by
  induction objs with
  | nil =>
      intro st st' _ _ _ k _ hkF
      simp at hkF
  | cons obj rest ih =>
      intro st st' hrun hnd hndF k hkP hkF
      simp only [List.map_cons, List.nodup_cons] at hndF
      rw [new_poll_loop] at hrun
      cases hstep : new_poll_step nameOf f st obj with
      | none => rw [hstep] at hrun; cases hrun
      | some st2 =>
          rw [hstep] at hrun
          rw [new_poll_step] at hstep
          cases hget : dget st.origmap (nameOf obj) with
          | some r =>
              rw [hget] at hstep
              simp only [Option.some.injEq] at hstep
              subst hstep
              by_cases hk : k = nameOf obj
              · subst hk
                rw [new_poll_loop_current_untouched nameOf f rest _ _ hrun
                    (nameOf obj) hndF.1]
                rw [hget]
                exact dget_dinsert_self _ _ _
              · have hkF' : k ∈ rest.map nameOf := by
                  rcases List.mem_cons.mp hkF with h1 | h1
                  · exact absurd h1 hk
                  · exact h1
                have hkP' : k ∈ dkeys (ddel st.origmap (nameOf obj)) :=
                  (mem_dkeys_ddel_ne hk).mpr hkP
                rw [ih _ _ hrun (dkeys_ddel_nodup hnd) hndF.2 k hkP' hkF']
                exact dget_ddel_ne hk _
          | none =>
              rw [hget] at hstep
              cases hbuild : f obj (nameOf obj) st.bs with
              | none => rw [hbuild] at hstep; cases hstep
              | some rs =>
                  rw [hbuild] at hstep
                  simp only [Option.some.injEq] at hstep
                  subst hstep
                  have hk : k ≠ nameOf obj := by
                    intro hh
                    subst hh
                    exact (not_mem_dkeys_of_dget_none hget) hkP
                  have hkF' : k ∈ rest.map nameOf := by
                    rcases List.mem_cons.mp hkF with h1 | h1
                    · exact absurd h1 hk
                    · exact h1
                  rw [ih _ _ hrun hnd hndF.2 k hkP hkF']

/-- A builder that never raises, wrapped so that its internal state also
records the keys it was invoked on, in invocation order. -/
def traceBuild {Obj σ : Type} (g : Obj → K → σ → R × σ) :
    Obj → K → σ × List K → Option (R × (σ × List K)) :=
  fun o k s => some ((g o k s.1).1, ((g o k s.1).2, s.2 ++ [k]))

theorem new_poll_loop_trace {Obj σ : Type} (nameOf : Obj → K)
    (g : Obj → K → σ → R × σ) (objs : List Obj) :
    ∀ (st st' : PollSt K R (σ × List K)),
      new_poll_loop nameOf (traceBuild g) objs st = some st' →
      (dkeys st.origmap).Nodup →
      (objs.map nameOf).Nodup →
      st'.bs.2 = st.bs.2 ++
        (objs.map nameOf).filter (fun k => !(dmem st.origmap k)) := by
  induction objs with
  | nil =>
      intro st st' hrun _ _
      simp only [new_poll_loop, Option.some.injEq] at hrun
      subst hrun
      simp
  | cons obj rest ih =>
      intro st st' hrun hnd hndF
      simp only [List.map_cons, List.nodup_cons] at hndF
      rw [new_poll_loop] at hrun
      cases hstep : new_poll_step nameOf (traceBuild g) st obj with
      | none => rw [hstep] at hrun; cases hrun
      | some st2 =>
          rw [hstep] at hrun
          rw [new_poll_step] at hstep
          cases hget : dget st.origmap (nameOf obj) with
          | some r =>
              rw [hget] at hstep
              simp only [Option.some.injEq] at hstep
              subst hstep
              rw [ih _ _ hrun (dkeys_ddel_nodup hnd) hndF.2]
              have hmem : dmem st.origmap (nameOf obj) = true := by
                simp [dmem, hget]
              have hfeq : (rest.map nameOf).filter
                  (fun k => !(dmem (ddel st.origmap (nameOf obj)) k)) =
                  (rest.map nameOf).filter (fun k => !(dmem st.origmap k)) := by
                apply List.filter_congr
                intro x hx
                have hxne : x ≠ nameOf obj := fun hh => hndF.1 (hh ▸ hx)
                simp [dmem, dget_ddel_ne hxne]
              rw [hfeq]
              simp [List.filter_cons, hmem]
          | none =>
              rw [hget] at hstep
              simp only [traceBuild, Option.some.injEq] at hstep
              subst hstep
              rw [ih _ _ hrun hnd hndF.2]
              have hmem : dmem st.origmap (nameOf obj) = false := by
                simp [dmem, hget]
              simp [List.filter_cons, hmem, List.append_assoc]

/-! ### Lemmas about the `_old_poll_helper` loop -/

theorem check_obj_origmap {Obj σ : Type}
    (l : K → σ → Option (Obj × σ)) (b : Obj → K → σ → Option (R × σ))
    (st : PollSt K R σ) (n : K) :
    (check_obj l b st n).origmap =
      if dmem st.origmap n then ddel st.origmap n else st.origmap := by
  rw [check_obj]
  cases hget : dget st.origmap n with
  | some r => simp [dmem, hget]
  | none =>
      cases hl : l n st.bs with
      | none => simp [dmem, hget]
      | some os =>
          cases hb : b os.1 n os.2 with
          | none => simp [dmem, hget, hl, hb]
          | some rs => simp [dmem, hget, hl, hb]

theorem check_obj_current_mem {Obj σ : Type}
    (l : K → σ → Option (Obj × σ)) (b : Obj → K → σ → Option (R × σ))
    (st : PollSt K R σ) (n : K) {k : K}
    (h : k ∈ dkeys (check_obj l b st n).current) :
    k = n ∨ k ∈ dkeys st.current := by
  cases hget : dget st.origmap n with
  | some r =>
      simp only [check_obj, hget] at h
      exact mem_dkeys_dinsert.mp h
  | none =>
      cases hl : l n st.bs with
      | none =>
          simp only [check_obj, hget, hl] at h
          exact Or.inr h
      | some os =>
          obtain ⟨o1, s1⟩ := os
          cases hb : b o1 n s1 with
          | none =>
              simp only [check_obj, hget, hl, hb] at h
              exact Or.inr h
          | some rs =>
              obtain ⟨r2, s2⟩ := rs
              simp only [check_obj, hget, hl, hb] at h
              exact mem_dkeys_dinsert.mp h

theorem check_obj_new_mem {Obj σ : Type}
    (l : K → σ → Option (Obj × σ)) (b : Obj → K → σ → Option (R × σ))
    (st : PollSt K R σ) (n : K) {k : K}
    (h : k ∈ dkeys (check_obj l b st n).new) :
    k = n ∨ k ∈ dkeys st.new := by
  cases hget : dget st.origmap n with
  | some r =>
      simp only [check_obj, hget] at h
      exact Or.inr h
  | none =>
      cases hl : l n st.bs with
      | none =>
          simp only [check_obj, hget, hl] at h
          exact Or.inr h
      | some os =>
          obtain ⟨o1, s1⟩ := os
          cases hb : b o1 n s1 with
          | none =>
              simp only [check_obj, hget, hl, hb] at h
              exact Or.inr h
          | some rs =>
              obtain ⟨r2, s2⟩ := rs
              simp only [check_obj, hget, hl, hb] at h
              exact mem_dkeys_dinsert.mp h

theorem check_obj_current_untouched {Obj σ : Type}
    (l : K → σ → Option (Obj × σ)) (b : Obj → K → σ → Option (R × σ))
    (st : PollSt K R σ) (n : K) {k : K} (h : k ≠ n) :
    dget (check_obj l b st n).current k = dget st.current k := by
  cases hget : dget st.origmap n with
  | some r =>
      simp only [check_obj, hget]
      exact dget_dinsert_ne h _ _
  | none =>
      cases hl : l n st.bs with
      | none => simp only [check_obj, hget, hl]
      | some os =>
          obtain ⟨o1, s1⟩ := os
          cases hb : b o1 n s1 with
          | none => simp only [check_obj, hget, hl, hb]
          | some rs =>
              obtain ⟨r2, s2⟩ := rs
              simp only [check_obj, hget, hl, hb]
              exact dget_dinsert_ne h _ _

theorem check_obj_retain {Obj σ : Type}
    (l : K → σ → Option (Obj × σ)) (b : Obj → K → σ → Option (R × σ))
    (st : PollSt K R σ) (n : K) {r : R}
    (hget : dget st.origmap n = some r) :
    check_obj l b st n =
      { st with current := dinsert st.current n r,
                origmap := ddel st.origmap n } := by
  rw [check_obj, hget]

theorem old_poll_fold_origmap {Obj σ : Type}
    (l : K → σ → Option (Obj × σ)) (b : Obj → K → σ → Option (R × σ))
    (names : List K) :
    ∀ (st : PollSt K R σ),
      (dkeys st.origmap).Nodup →
      (names.foldl (check_obj l b) st).origmap =
        st.origmap.filter (fun p => decide (p.1 ∉ names)) := by
  induction names with
  | nil =>
      intro st _
      symm
      apply List.filter_eq_self.mpr
      intro p _
      simp
  | cons n rest ih =>
      intro st hnd
      rw [List.foldl_cons]
      cases hmem : dmem st.origmap n with
      | true =>
          have hor : (check_obj l b st n).origmap = ddel st.origmap n := by
            rw [check_obj_origmap, hmem, if_pos rfl]
          have hnd2 : (dkeys (check_obj l b st n).origmap).Nodup := by
            rw [hor]; exact dkeys_ddel_nodup hnd
          rw [ih _ hnd2, hor]
          exact ddel_filter_keys_cons hnd rest
      | false =>
          have hor : (check_obj l b st n).origmap = st.origmap := by
            rw [check_obj_origmap, hmem]
            simp
          have hnd2 : (dkeys (check_obj l b st n).origmap).Nodup := by
            rw [hor]; exact hnd
          rw [ih _ hnd2, hor]
          have hnmem : n ∉ dkeys st.origmap := by
            intro hc
            rw [show dmem st.origmap n = true by
              simp [dmem, (mem_dkeys.mp hc)]] at hmem
            cases hmem
          exact (filter_keys_cons_of_not_mem hnmem rest).symm

theorem old_poll_fold_current_sub {Obj σ : Type}
    (l : K → σ → Option (Obj × σ)) (b : Obj → K → σ → Option (R × σ))
    (names : List K) :
    ∀ (st : PollSt K R σ) (k : K),
      k ∈ dkeys ((names.foldl (check_obj l b) st).current) →
      k ∈ dkeys st.current ∨ k ∈ names := by
  induction names with
  | nil => intro st k h; exact Or.inl h
  | cons n rest ih =>
      intro st k h
      rw [List.foldl_cons] at h
      rcases ih _ k h with h1 | h1
      · rcases check_obj_current_mem l b st n h1 with h2 | h2
        · exact Or.inr (h2 ▸ List.mem_cons_self n rest)
        · exact Or.inl h2
      · exact Or.inr (List.mem_cons_of_mem n h1)

theorem old_poll_fold_new_sub {Obj σ : Type}
    (l : K → σ → Option (Obj × σ)) (b : Obj → K → σ → Option (R × σ))
    (names : List K) :
    ∀ (st : PollSt K R σ) (k : K),
      k ∈ dkeys ((names.foldl (check_obj l b) st).new) →
      k ∈ dkeys st.new ∨ k ∈ names := by
  induction names with
  | nil => intro st k h; exact Or.inl h
  | cons n rest ih =>
      intro st k h
      rw [List.foldl_cons] at h
      rcases ih _ k h with h1 | h1
      · rcases check_obj_new_mem l b st n h1 with h2 | h2
        · exact Or.inr (h2 ▸ List.mem_cons_self n rest)
        · exact Or.inl h2
      · exact Or.inr (List.mem_cons_of_mem n h1)

theorem old_poll_fold_current_untouched {Obj σ : Type}
    (l : K → σ → Option (Obj × σ)) (b : Obj → K → σ → Option (R × σ))
    (names : List K) :
    ∀ (st : PollSt K R σ) (k : K), k ∉ names →
      dget ((names.foldl (check_obj l b) st).current) k =
        dget st.current k := by
  induction names with
  | nil => intro st k _; rfl
  | cons n rest ih =>
      intro st k hk
      simp only [List.mem_cons, not_or] at hk
      rw [List.foldl_cons, ih _ k hk.2]
      exact check_obj_current_untouched l b st n hk.1

theorem old_poll_fold_retained_get {Obj σ : Type}
    (l : K → σ → Option (Obj × σ)) (b : Obj → K → σ → Option (R × σ))
    (names : List K) :
    ∀ (st : PollSt K R σ),
      (dkeys st.origmap).Nodup → names.Nodup →
      ∀ k, k ∈ dkeys st.origmap → k ∈ names →
        dget ((names.foldl (check_obj l b) st).current) k =
          dget st.origmap k := by
  induction names with
  | nil => intro st _ _ k _ hkF; simp at hkF
  | cons n rest ih =>
      intro st hnd hndF k hkP hkF
      simp only [List.nodup_cons] at hndF
      rw [List.foldl_cons]
      by_cases hk : k = n
      · subst hk
        obtain ⟨r, hr⟩ := Option.isSome_iff_exists.mp (dget_isSome_of_mem hkP)
        rw [old_poll_fold_current_untouched l b rest _ k hndF.1,
            check_obj_retain l b st k hr]
        rw [hr]
        exact dget_dinsert_self _ _ _
      · have hkF' : k ∈ rest := by
          rcases List.mem_cons.mp hkF with h1 | h1
          · exact absurd h1 hk
          · exact h1
        cases hmem : dmem st.origmap n with
        | true =>
            obtain ⟨r, hr⟩ := Option.isSome_iff_exists.mp hmem
            rw [check_obj_retain l b st n hr]
            have hkP' : k ∈ dkeys (ddel st.origmap n) :=
              (mem_dkeys_ddel_ne hk).mpr hkP
            have := ih { st with current := dinsert st.current n r,
                                 origmap := ddel st.origmap n }
              (dkeys_ddel_nodup hnd) hndF.2 k hkP' hkF'
            rw [this]
            exact dget_ddel_ne hk _
        | false =>
            have hor : (check_obj l b st n).origmap = st.origmap := by
              rw [check_obj_origmap, hmem]
              simp
            have := ih (check_obj l b st n) (hor ▸ hnd) hndF.2 k
              (hor ▸ hkP) hkF'
            rw [this, hor]

theorem check_obj_lookup_fail {Obj σ : Type}
    (l : K → σ → Option (Obj × σ)) (b : Obj → K → σ → Option (R × σ))
    (st : PollSt K R σ) (n : K)
    (hget : dget st.origmap n = none) (hl : l n st.bs = none) :
    check_obj l b st n = st := by
  simp only [check_obj, hget, hl]

theorem check_obj_build_fail {Obj σ : Type}
    (l : K → σ → Option (Obj × σ)) (b : Obj → K → σ → Option (R × σ))
    (st : PollSt K R σ) (n : K) {o : Obj} {u : σ}
    (hget : dget st.origmap n = none) (hl : l n st.bs = some (o, u))
    (hb : b o n u = none) :
    check_obj l b st n = { st with bs := u } := by
  simp only [check_obj, hget, hl, hb]

theorem check_obj_build_ok {Obj σ : Type}
    (l : K → σ → Option (Obj × σ)) (b : Obj → K → σ → Option (R × σ))
    (st : PollSt K R σ) (n : K) {o : Obj} {u : σ} {r : R} {v : σ}
    (hget : dget st.origmap n = none) (hl : l n st.bs = some (o, u))
    (hb : b o n u = some (r, v)) :
    check_obj l b st n =
      { st with current := dinsert st.current n r,
                new := dinsert st.new n r, bs := v } := by
  simp only [check_obj, hget, hl, hb]

/-- A per-name lookup that never raises, wrapped so that its state records
the names it was invoked on, in invocation order. -/
def traceLookup {Obj : Type} (lkf : K → Obj) :
    K → List K → Option (Obj × List K) :=
  fun n s => some (lkf n, s ++ [n])

/-- A builder that never raises and leaves the threaded state alone. -/
def passBuild {Obj : Type} (bdf : Obj → K → R) :
    Obj → K → List K → Option (R × List K) :=
  fun o k s => some (bdf o k, s)

theorem old_poll_fold_lookup_trace {Obj : Type}
    (lkf : K → Obj) (bdf : Obj → K → R) (names : List K) :
    ∀ (st : PollSt K R (List K)),
      (dkeys st.origmap).Nodup → names.Nodup →
      ((names.foldl (check_obj (traceLookup lkf) (passBuild bdf)) st).bs) =
        st.bs ++ names.filter (fun n => !(dmem st.origmap n)) := by
  induction names with
  | nil => intro st _ _; simp
  | cons n rest ih =>
      intro st hnd hndF
      simp only [List.nodup_cons] at hndF
      rw [List.foldl_cons]
      cases hmem : dmem st.origmap n with
      | true =>
          obtain ⟨r, hr⟩ := Option.isSome_iff_exists.mp hmem
          rw [check_obj_retain _ _ st n hr]
          rw [ih _ (dkeys_ddel_nodup hnd) hndF.2]
          have hfeq : rest.filter
              (fun x => !(dmem (ddel st.origmap n) x)) =
              rest.filter (fun x => !(dmem st.origmap x)) := by
            apply List.filter_congr
            intro x hx
            have hxne : x ≠ n := fun hh => hndF.1 (hh ▸ hx)
            simp [dmem, dget_ddel_ne hxne]
          rw [hfeq]
          simp [List.filter_cons, dmem, hr]
      | false =>
          have hget : dget st.origmap n = none := by
            cases hg : dget st.origmap n with
            | none => rfl
            | some r => rw [dmem, hg] at hmem; cases hmem
          rw [check_obj_build_ok (traceLookup lkf) (passBuild bdf) st n
            (o := lkf n) (u := st.bs ++ [n]) (r := bdf (lkf n) n)
            (v := st.bs ++ [n]) hget (by simp [traceLookup])
            (by simp [passBuild])]
          rw [ih { st with current := dinsert st.current n (bdf (lkf n) n),
                           new := dinsert st.new n (bdf (lkf n) n),
                           bs := st.bs ++ [n] } hnd hndF.2]
          simp [List.filter_cons, hmem, List.append_assoc]

/-- A per-name lookup raising exactly on the names in `bad`. -/
def failLookup {Obj : Type} (lkf : K → Obj) (bad : List K) :
    K → Unit → Option (Obj × Unit) :=
  fun n _ => if n ∈ bad then none else some (lkf n, ())

/-- A builder raising exactly on the keys in `bad`. -/
def failBuild {Obj : Type} (bdf : Obj → K → R) (bad : List K) :
    Obj → K → Unit → Option (R × Unit) :=
  fun o k _ => if k ∈ bad then none else some (bdf o k, ())

theorem old_poll_fold_fail_master {Obj : Type}
    (lkf : K → Obj) (bdf : Obj → K → R) (badL badB : List K)
    (names : List K) :
    ∀ (st : PollSt K R Unit),
      (dkeys st.origmap).Nodup → names.Nodup →
      (∀ k, k ∈ dkeys ((names.foldl
            (check_obj (failLookup lkf badL) (failBuild bdf badB))
            st).current) ↔
          (k ∈ dkeys st.current ∨
            (k ∈ names ∧ (k ∈ dkeys st.origmap ∨
              (k ∉ badL ∧ k ∉ badB))))) ∧
      (∀ k, k ∈ dkeys ((names.foldl
            (check_obj (failLookup lkf badL) (failBuild bdf badB))
            st).new) ↔
          (k ∈ dkeys st.new ∨
            (k ∈ names ∧ k ∉ dkeys st.origmap ∧
              k ∉ badL ∧ k ∉ badB))) := by
  induction names with
  | nil =>
      intro st _ _
      constructor
      · intro k; simp
      · intro k; simp
  | cons n rest ih =>
      intro st hnd hndF
      simp only [List.nodup_cons] at hndF
      rw [List.foldl_cons]
      cases hmem : dmem st.origmap n with
      | true =>
          obtain ⟨r, hr⟩ := Option.isSome_iff_exists.mp hmem
          have hnmem : n ∈ dkeys st.origmap := mem_dkeys.mpr (by rw [hr]; rfl)
          rw [check_obj_retain _ _ st n hr]
          obtain ⟨ihc, ihn⟩ := ih
            { st with current := dinsert st.current n r,
                      origmap := ddel st.origmap n }
            (dkeys_ddel_nodup hnd) hndF.2
          constructor
          · intro k
            rw [ihc k]
            by_cases hk : k = n
            · subst hk
              simp [mem_dkeys_dinsert, hnmem]
            · rw [mem_dkeys_dinsert]
              rw [mem_dkeys_ddel_ne hk]
              simp only [List.mem_cons]
              constructor
              · rintro ((h1 | h1) | h1)
                · exact absurd h1 hk
                · exact Or.inl h1
                · exact Or.inr ⟨Or.inr h1.1, h1.2⟩
              · rintro (h1 | h1)
                · exact Or.inl (Or.inr h1)
                · rcases h1.1 with h2 | h2
                  · exact absurd h2 hk
                  · exact Or.inr ⟨h2, h1.2⟩
          · intro k
            rw [ihn k]
            by_cases hk : k = n
            · subst hk
              simp [hndF.1, hnmem]
            · rw [mem_dkeys_ddel_ne hk]
              simp only [List.mem_cons]
              constructor
              · rintro (h1 | h1)
                · exact Or.inl h1
                · exact Or.inr ⟨Or.inr h1.1, h1.2⟩
              · rintro (h1 | h1)
                · exact Or.inl h1
                · rcases h1.1 with h2 | h2
                  · exact absurd h2 hk
                  · exact Or.inr ⟨h2, h1.2⟩
      | false =>
          have hget : dget st.origmap n = none := by
            cases hg : dget st.origmap n with
            | none => rfl
            | some r => rw [dmem, hg] at hmem; cases hmem
          have hnmem : n ∉ dkeys st.origmap := not_mem_dkeys_of_dget_none hget
          by_cases hbl : n ∈ badL
          · rw [check_obj_lookup_fail _ _ st n hget
              (by simp [failLookup, hbl])]
            obtain ⟨ihc, ihn⟩ := ih st hnd hndF.2
            constructor
            · intro k
              rw [ihc k]
              by_cases hk : k = n
              · subst hk
                simp [hndF.1, hnmem, hbl]
              · simp only [List.mem_cons]
                constructor
                · rintro (h1 | h1)
                  · exact Or.inl h1
                  · exact Or.inr ⟨Or.inr h1.1, h1.2⟩
                · rintro (h1 | h1)
                  · exact Or.inl h1
                  · rcases h1.1 with h2 | h2
                    · exact absurd h2 hk
                    · exact Or.inr ⟨h2, h1.2⟩
            · intro k
              rw [ihn k]
              by_cases hk : k = n
              · subst hk
                simp [hndF.1, hnmem, hbl]
              · simp only [List.mem_cons]
                constructor
                · rintro (h1 | h1)
                  · exact Or.inl h1
                  · exact Or.inr ⟨Or.inr h1.1, h1.2⟩
                · rintro (h1 | h1)
                  · exact Or.inl h1
                  · rcases h1.1 with h2 | h2
                    · exact absurd h2 hk
                    · exact Or.inr ⟨h2, h1.2⟩
          · by_cases hbb : n ∈ badB
            · rw [check_obj_build_fail (failLookup lkf badL)
                (failBuild bdf badB) st n (o := lkf n) (u := ()) hget
                (by simp [failLookup, hbl]) (by simp [failBuild, hbb])]
              obtain ⟨ihc, ihn⟩ := ih { st with bs := () } hnd hndF.2
              constructor
              · intro k
                rw [ihc k]
                by_cases hk : k = n
                · subst hk
                  simp [hndF.1, hnmem, hbb]
                · simp only [List.mem_cons]
                  constructor
                  · rintro (h1 | h1)
                    · exact Or.inl h1
                    · exact Or.inr ⟨Or.inr h1.1, h1.2⟩
                  · rintro (h1 | h1)
                    · exact Or.inl h1
                    · rcases h1.1 with h2 | h2
                      · exact absurd h2 hk
                      · exact Or.inr ⟨h2, h1.2⟩
              · intro k
                rw [ihn k]
                by_cases hk : k = n
                · subst hk
                  simp [hndF.1, hnmem, hbb]
                · simp only [List.mem_cons]
                  constructor
                  · rintro (h1 | h1)
                    · exact Or.inl h1
                    · exact Or.inr ⟨Or.inr h1.1, h1.2⟩
                  · rintro (h1 | h1)
                    · exact Or.inl h1
                    · rcases h1.1 with h2 | h2
                      · exact absurd h2 hk
                      · exact Or.inr ⟨h2, h1.2⟩
            · rw [check_obj_build_ok (failLookup lkf badL)
                (failBuild bdf badB) st n (o := lkf n) (u := ())
                (r := bdf (lkf n) n) (v := ()) hget
                (by simp [failLookup, hbl]) (by simp [failBuild, hbb])]
              obtain ⟨ihc, ihn⟩ := ih
                { st with current := dinsert st.current n (bdf (lkf n) n),
                          new := dinsert st.new n (bdf (lkf n) n), bs := () }
                hnd hndF.2
              constructor
              · intro k
                rw [ihc k]
                by_cases hk : k = n
                · subst hk
                  simp [mem_dkeys_dinsert, hbl, hbb]
                · rw [mem_dkeys_dinsert]
                  simp only [List.mem_cons]
                  constructor
                  · rintro ((h1 | h1) | h1)
                    · exact absurd h1 hk
                    · exact Or.inl h1
                    · exact Or.inr ⟨Or.inr h1.1, h1.2⟩
                  · rintro (h1 | h1)
                    · exact Or.inl (Or.inr h1)
                    · rcases h1.1 with h2 | h2
                      · exact absurd h2 hk
                      · exact Or.inr ⟨h2, h1.2⟩
              · intro k
                rw [ihn k]
                by_cases hk : k = n
                · subst hk
                  simp [mem_dkeys_dinsert, hnmem, hbl, hbb]
                · rw [mem_dkeys_dinsert]
                  simp only [List.mem_cons]
                  constructor
                  · rintro ((h1 | h1) | h1)
                    · exact absurd h1 hk
                    · exact Or.inl h1
                    · exact Or.inr ⟨Or.inr h1.1, h1.2⟩
                  · rintro (h1 | h1)
                    · exact Or.inl (Or.inr h1)
                    · rcases h1.1 with h2 | h2
                      · exact absurd h2 hk
                      · exact Or.inr ⟨h2, h1.2⟩

theorem new_poll_loop_current_nodup {Obj σ : Type} (nameOf : Obj → K)
    (f : Obj → K → σ → Option (R × σ)) (objs : List Obj) :
    ∀ (st st' : PollSt K R σ),
      new_poll_loop nameOf f objs st = some st' →
      (dkeys st.current).Nodup → (dkeys st'.current).Nodup := by
  induction objs with
  | nil =>
      intro st st' hrun h
      simp only [new_poll_loop, Option.some.injEq] at hrun
      subst hrun
      exact h
  | cons obj rest ih =>
      intro st st' hrun h
      rw [new_poll_loop] at hrun
      cases hstep : new_poll_step nameOf f st obj with
      | none => rw [hstep] at hrun; cases hrun
      | some st2 =>
          rw [hstep] at hrun
          rw [new_poll_step] at hstep
          cases hget : dget st.origmap (nameOf obj) with
          | some r =>
              rw [hget] at hstep
              simp only [Option.some.injEq] at hstep
              subst hstep
              exact ih _ _ hrun (dkeys_dinsert_nodup h)
          | none =>
              rw [hget] at hstep
              cases hbuild : f obj (nameOf obj) st.bs with
              | none => rw [hbuild] at hstep; cases hstep
              | some rs =>
                  rw [hbuild] at hstep
                  simp only [Option.some.injEq] at hstep
                  subst hstep
                  exact ih _ _ hrun (dkeys_dinsert_nodup h)

omit [DecidableEq K] in
theorem dkeys_filter_sub {m : List (K × R)} {p : K × R → Bool} {k : K}
    (h : k ∈ dkeys (m.filter p)) : k ∈ dkeys m := by
  obtain ⟨q, hq, rfl⟩ := List.mem_map.mp h
  exact List.mem_map.mpr ⟨q, (List.filter_sublist m).mem hq, rfl⟩

theorem mem_dkeys_filter_keys {m : List (K × R)} {k : K} {l : List K}
    (hk : k ∈ dkeys m) (hnl : k ∉ l) :
    k ∈ dkeys (m.filter (fun p => decide (p.1 ∉ l))) := by
  obtain ⟨q, hq, rfl⟩ := List.mem_map.mp hk
  exact List.mem_map.mpr
    ⟨q, List.mem_filter.mpr ⟨hq, by simpa using hnl⟩, rfl⟩

theorem dkeys_filter_keys_not_mem {m : List (K × R)} {k : K} {l : List K}
    (h : k ∈ dkeys (m.filter (fun p => decide (p.1 ∉ l)))) : k ∉ l := by
  obtain ⟨q, hq, rfl⟩ := List.mem_map.mp h
  simpa using (List.mem_filter.mp hq).2

omit [DecidableEq K] in
theorem eq_nil_of_dkeys_empty {m : List (K × R)} (h : ∀ k, k ∉ dkeys m) :
    m = [] := by
  cases m with
  | nil => rfl
  | cons p rest => exact absurd (by simp [dkeys]) (h p.1)

/-! ### Claim C1 -/

/-- C1, counterexample to the claim as stated: with previous snapshot
`P = {}` and fresh listing `F = [a]` (distinct keys, all builds succeed),
the key `a` appears in BOTH the `new` and the `current` output of
`_new_poll_helper` — `new` is always a subset of `current` — so the
claimed "no key appears in more than one of removed, new, current" fails.
-/
theorem C1_cx_key_in_new_and_current :
    new_poll_run (K := String) (R := Nat) (σ := Unit) (fun s => s)
        [] (some ["a"]) (fun _ _ s => some (1, s)) () =
      some ⟨[], [("a", 1)], [("a", 1)], ()⟩ ∧
    ("a" ∈ dkeys ([("a", 1)] : List (String × Nat)) ∧
     "a" ∈ dkeys ([("a", 1)] : List (String × Nat))) := by
  constructor
  · rfl
  · exact ⟨by decide, by decide⟩

/-- C1 (amended): for distinct-keyed snapshot `P` and listing `F`, when
every build succeeds, `_new_poll_helper` satisfies: every key of `F` is in
`current`; every key of `P` absent from `F` is in `removed`; the keys of
`new` are exactly the keys of `F` that are not keys of `P`; `removed` is
disjoint from both `current` and `new`; and `new` is a subset of `current`
(this last point replacing the claim's pairwise disjointness of all three,
which is impossible whenever `new` is nonempty). -/
theorem C1_partition_invariant {Obj σ : Type} (nameOf : Obj → K)
    (f : Obj → K → σ → Option (R × σ)) (P : List (K × R))
    (objs : List Obj) (s0 : σ) (st' : PollSt K R σ)
    (hrun : new_poll_run nameOf P (some objs) f s0 = some st')
    (hP : (dkeys P).Nodup) (hF : (objs.map nameOf).Nodup) :
    (∀ o ∈ objs, nameOf o ∈ dkeys st'.current) ∧
    (∀ k ∈ dkeys P, k ∉ objs.map nameOf → k ∈ dkeys st'.origmap) ∧
    (∀ k, k ∈ dkeys st'.new ↔ (k ∈ objs.map nameOf ∧ k ∉ dkeys P)) ∧
    (∀ k ∈ dkeys st'.origmap,
      k ∉ dkeys st'.current ∧ k ∉ dkeys st'.new) ∧
    (∀ k ∈ dkeys st'.new, k ∈ dkeys st'.current) := by
  rw [new_poll_run, Option.getD_some] at hrun
  have hcur := new_poll_loop_current_mem nameOf f objs _ _ hrun
  have hnew := new_poll_loop_new_mem nameOf f objs _ _ hrun hP hF
  have horig := new_poll_loop_origmap nameOf f objs _ _ hrun hP
  have hke : dkeys ([] : List (K × R)) = [] := rfl
  simp only [hke, List.not_mem_nil, false_or] at hcur hnew
  refine ⟨?_, ?_, ?_, ?_, ?_⟩
  · intro o ho
    exact (hcur (nameOf o)).mpr (List.mem_map.mpr ⟨o, ho, rfl⟩)
  · intro k hkP hkF
    rw [horig]
    exact mem_dkeys_filter_keys hkP hkF
  · intro k
    exact hnew k
  · intro k hk
    rw [horig] at hk
    have hkF : k ∉ objs.map nameOf := dkeys_filter_keys_not_mem hk
    constructor
    · intro hc
      exact hkF ((hcur k).mp hc)
    · intro hc
      exact hkF (((hnew k).mp hc).1)
  · intro k hk
    exact (hcur k).mpr ((hnew k).mp hk).1

/-- C1 witness: the amended invariant at a concrete input. -/
theorem C1_partition_invariant_witness :
    (∀ o ∈ ["a", "b"], (fun s => s) o ∈
        dkeys ([("a", 5), ("b", 1)] : List (String × Nat))) ∧
    (∀ k ∈ dkeys ([("a", 5), ("c", 7)] : List (String × Nat)),
      k ∉ ["a", "b"].map (fun s => s) →
        k ∈ dkeys ([("c", 7)] : List (String × Nat))) ∧
    (∀ k, k ∈ dkeys ([("b", 1)] : List (String × Nat)) ↔
      (k ∈ ["a", "b"].map (fun s => s) ∧
        k ∉ dkeys ([("a", 5), ("c", 7)] : List (String × Nat)))) ∧
    (∀ k ∈ dkeys ([("c", 7)] : List (String × Nat)),
      k ∉ dkeys ([("a", 5), ("b", 1)] : List (String × Nat)) ∧
      k ∉ dkeys ([("b", 1)] : List (String × Nat))) ∧
    (∀ k ∈ dkeys ([("b", 1)] : List (String × Nat)),
      k ∈ dkeys ([("a", 5), ("b", 1)] : List (String × Nat))) := by
  have h := C1_partition_invariant (K := String) (R := Nat) (σ := Unit)
    (fun s => s) (fun _ _ s => some (1, s)) [("a", 5), ("c", 7)]
    ["a", "b"] () ⟨[("c", 7)], [("a", 5), ("b", 1)], [("b", 1)], ()⟩
    (by rfl) (by decide) (by decide)
  exact h

/-! ### Claim C4 -/

/-- C4, counterexample to the claim as stated: `_new_poll_helper` mutates
the caller's `origmap` in place (`del origmap[connkey]` for every retained
key), so with `origmap = {a: 5}` and listing `[a]` the caller's mapping is
`{}` at return, not `{a: 5}` — it is NOT left unchanged. -/
theorem C4_cx_origmap_mutated :
    new_poll_run (K := String) (R := Nat) (σ := Unit) (fun s => s)
        [("a", 5)] (some ["a"]) (fun _ _ s => some (1, s)) () =
      some ⟨[], [("a", 5)], [], ()⟩ ∧
    ([] : List (String × Nat)) ≠ [("a", 5)] := by
  constructor
  · rfl
  · decide

/-- C4 (amended): `_new_poll_helper` destructively consumes the caller's
`origmap`: when the call returns, the caller's mapping holds exactly the
entries of the original snapshot whose keys did not occur in the fresh
listing (that is, exactly the `removed` entries); every entry whose key was
listed has been deleted from it. -/
theorem C4_origmap_consumed {Obj σ : Type} (nameOf : Obj → K)
    (f : Obj → K → σ → Option (R × σ)) (P : List (K × R))
    (listres : Option (List Obj)) (s0 : σ) (st' : PollSt K R σ)
    (hrun : new_poll_run nameOf P listres f s0 = some st')
    (hP : (dkeys P).Nodup) :
    st'.origmap =
      P.filter (fun p => decide (p.1 ∉ (listres.getD []).map nameOf)) := by
  rw [new_poll_run] at hrun
  exact new_poll_loop_origmap nameOf f (listres.getD []) _ _ hrun hP

/-- C4 witness: the amended statement at a concrete input. -/
theorem C4_origmap_consumed_witness :
    ([("b", 6)] : List (String × Nat)) =
      [("a", 5), ("b", 6)].filter
        (fun p => decide (p.1 ∉ ((some ["a"]).getD []).map
          (fun s : String => s))) := by
  exact C4_origmap_consumed (K := String) (R := Nat) (σ := Unit)
    (fun s => s) (fun _ _ s => some (1, s)) [("a", 5), ("b", 6)]
    (some ["a"]) () ⟨[("b", 6)], [("a", 5)], [], ()⟩ (by rfl) (by decide)

/-! ### Claim C6 -/

/-- C6: when the bulk listing call raises, `_new_poll_helper` catches the
exception (no propagation: the result is `some`), treats the listing as
empty, and returns `removed = all records of the previous snapshot`,
`new = []`, `current = []`. -/
theorem C6_listing_failure_degrades {Obj σ : Type} (nameOf : Obj → K)
    (P : List (K × R)) (f : Obj → K → σ → Option (R × σ)) (s0 : σ) :
    new_poll_helper nameOf P none f s0 = some ((dvalues P, [], []), s0) :=
  rfl

/-! ### Claim C7 -/

/-- C7, counterexample to the claim as stated: with the duplicate-keyed
listing `F = [a, a]` (and `P = {}`), the second run — whose previous
snapshot is the first run's `current = {a: 1}` — retains `a` at the first
occurrence, deletes it from the working map, and then REBUILDS it at the
second occurrence, so the second run's `new` is `{a: 1}`, not empty. -/
theorem C7_cx_duplicate_listing :
    new_poll_run (K := String) (R := Nat) (σ := Unit) (fun s => s)
        [] (some ["a", "a"]) (fun _ _ s => some (1, s)) () =
      some ⟨[], [("a", 1)], [("a", 1)], ()⟩ ∧
    new_poll_run (K := String) (R := Nat) (σ := Unit) (fun s => s)
        [("a", 1)] (some ["a", "a"]) (fun _ _ s => some (1, s)) () =
      some ⟨[], [("a", 1)], [("a", 1)], ()⟩ ∧
    ([("a", 1)] : List (String × Nat)) ≠ [] := by
  exact ⟨rfl, rfl, by decide⟩

/-- C7 (amended): for a fresh listing with distinct keys (and a
distinct-keyed snapshot), re-running `_new_poll_helper` with the same
listing, using the first run's `current` as the second run's previous
snapshot, yields `removed = []` and `new = []`. -/
theorem C7_idempotence {Obj σ σ' : Type} (nameOf : Obj → K)
    (g : Obj → K → σ → R × σ) (g' : Obj → K → σ' → R × σ')
    (P : List (K × R)) (objs : List Obj) (s0 : σ) (s0' : σ')
    (hF : (objs.map nameOf).Nodup) :
    ∃ st1 st2,
      new_poll_run nameOf P (some objs)
        (fun o k s => some (g o k s)) s0 = some st1 ∧
      new_poll_run nameOf st1.current (some objs)
        (fun o k s => some (g' o k s)) s0' = some st2 ∧
      st2.origmap = [] ∧ st2.new = [] := by
  obtain ⟨st1, h1⟩ := new_poll_loop_total nameOf g objs ⟨P, [], [], s0⟩
  obtain ⟨st2, h2⟩ := new_poll_loop_total nameOf g' objs
    ⟨st1.current, [], [], s0'⟩
  have h1' : new_poll_run nameOf P (some objs)
      (fun o k s => some (g o k s)) s0 = some st1 := by
    rw [new_poll_run, Option.getD_some]; exact h1
  have h2' : new_poll_run nameOf st1.current (some objs)
      (fun o k s => some (g' o k s)) s0' = some st2 := by
    rw [new_poll_run, Option.getD_some]; exact h2
  have hcur1 := new_poll_loop_current_mem nameOf _ objs _ _ h1
  have hke : dkeys ([] : List (K × R)) = [] := rfl
  simp only [hke, List.not_mem_nil, false_or] at hcur1
  have hnodup1 : (dkeys st1.current).Nodup :=
    new_poll_loop_current_nodup nameOf _ objs _ _ h1 (by simp [dkeys])
  refine ⟨st1, st2, h1', h2', ?_, ?_⟩
  · have horig := new_poll_loop_origmap nameOf _ objs _ _ h2 hnodup1
    rw [horig]
    apply List.filter_eq_nil_iff.mpr
    intro p hp
    have : p.1 ∈ dkeys st1.current := List.mem_map.mpr ⟨p, hp, rfl⟩
    simpa using (hcur1 p.1).mp this
  · have hnew := new_poll_loop_new_mem nameOf _ objs _ _ h2 hnodup1 hF
    apply eq_nil_of_dkeys_empty
    intro k hk
    rcases (hnew k).mp hk with hc | hc
    · exact List.not_mem_nil k (hke ▸ hc)
    · exact hc.2 ((hcur1 k).mpr hc.1)

/-- C7 witness: the amended idempotence at a concrete input. -/
theorem C7_idempotence_witness :
    ∃ st1 st2,
      new_poll_run (K := String) (R := Nat) (σ := Unit) (fun s => s)
        [("a", 5), ("c", 7)] (some ["a", "b"])
        (fun _ _ s => some (1, s)) () = some st1 ∧
      new_poll_run (fun s => s) st1.current (some ["a", "b"])
        (fun _ _ s => some (2, s)) () = some st2 ∧
      st2.origmap = [] ∧ st2.new = [] :=
  C7_idempotence (fun s => s) (fun _ _ s => (1, s)) (fun _ _ s => (2, s))
    [("a", 5), ("c", 7)] ["a", "b"] () () (by decide)

theorem dmem_iff {m : List (K × R)} {k : K} :
    dmem m k = true ↔ k ∈ dkeys m := by
  rw [dmem]
  exact mem_dkeys.symm

theorem dmem_false_iff {m : List (K × R)} {k : K} :
    dmem m k = false ↔ k ∉ dkeys m := by
  rw [← dmem_iff]
  cases dmem m k <;> simp

/-! ### Claim C2 -/

/-- C2, counterexample to the claim as stated: in the bulk path
(`_new_poll_helper`) a builder exception for one key (here the second of
three) is NOT caught — the loop has no handler — so the whole call raises
instead of returning a triple with the other two keys processed. -/
theorem C2_cx_bulk_build_exception_propagates :
    new_poll_run (K := String) (R := Nat) (σ := Unit) (fun s => s)
        [] (some ["a", "b", "c"])
        (fun _ k s => if k = "b" then none else some (0, s)) () = none :=
  rfl

/-- C2 (amended): the claimed per-key failure isolation holds only in the
split path.  In the bulk path (`_new_poll_helper`) a builder exception for
any newly observed key propagates, aborting the whole pass (first
conjunct).  In the split path (`_old_poll_helper`), with a lookup raising
exactly on `badL` and a builder raising exactly on `badB`: a failing
unknown name is absent from `removed`, `new` and `current` alike, every
other unknown name is looked up, built and reported in `new` and
`current`, and every known name is retained into `current` (second
conjunct, for distinct-keyed snapshots and listings). -/
theorem C2_partial_failure {A B : Type} :
    (∀ (nameOf : A → K) (f : A → K → Unit → Option (R × Unit))
        (P : List (K × R)) (obj : A) (objs : List A),
      nameOf obj ∉ dkeys P → f obj (nameOf obj) () = none →
      new_poll_run nameOf P (some (obj :: objs)) f () = none) ∧
    (∀ (lkf : K → B) (bdf : B → K → R) (badL badB : List K)
        (P : List (K × R)) (activeRes inactiveRes : Option (List K)),
      (dkeys P).Nodup →
      (activeRes.getD [] ++ inactiveRes.getD []).Nodup →
      (∀ n, n ∈ activeRes.getD [] ++ inactiveRes.getD [] →
        n ∉ dkeys P → (n ∈ badL ∨ n ∈ badB) →
        n ∉ dkeys (old_poll_run P activeRes inactiveRes
            (failLookup lkf badL) (failBuild bdf badB) ()).current ∧
        n ∉ dkeys (old_poll_run P activeRes inactiveRes
            (failLookup lkf badL) (failBuild bdf badB) ()).new ∧
        n ∉ dkeys (old_poll_run P activeRes inactiveRes
            (failLookup lkf badL) (failBuild bdf badB) ()).origmap) ∧
      (∀ n, n ∈ activeRes.getD [] ++ inactiveRes.getD [] →
        n ∉ dkeys P → n ∉ badL → n ∉ badB →
        n ∈ dkeys (old_poll_run P activeRes inactiveRes
            (failLookup lkf badL) (failBuild bdf badB) ()).current ∧
        n ∈ dkeys (old_poll_run P activeRes inactiveRes
            (failLookup lkf badL) (failBuild bdf badB) ()).new) ∧
      (∀ n, n ∈ activeRes.getD [] ++ inactiveRes.getD [] →
        n ∈ dkeys P →
        n ∈ dkeys (old_poll_run P activeRes inactiveRes
            (failLookup lkf badL) (failBuild bdf badB) ()).current ∧
        n ∉ dkeys (old_poll_run P activeRes inactiveRes
            (failLookup lkf badL) (failBuild bdf badB) ()).new)) := by
  constructor
  · intro nameOf f P obj objs hnm hf
    rw [new_poll_run, Option.getD_some, new_poll_loop, new_poll_step]
    rw [show dget P (nameOf obj) = none from dget_eq_none_of_not_mem hnm]
    rw [hf]
  · intro lkf bdf badL badB P activeRes inactiveRes hP hN
    obtain ⟨hc, hn⟩ := old_poll_fold_fail_master lkf bdf badL badB
      (activeRes.getD [] ++ inactiveRes.getD []) ⟨P, [], [], ()⟩ hP hN
    have hke : dkeys ([] : List (K × R)) = [] := rfl
    simp only [hke, List.not_mem_nil, false_or] at hc hn
    have horig := old_poll_fold_origmap (failLookup lkf badL)
      (failBuild bdf badB) (activeRes.getD [] ++ inactiveRes.getD [])
      ⟨P, [], [], ()⟩ hP
    refine ⟨?_, ?_, ?_⟩
    · intro n hmem hnP hbad
      refine ⟨?_, ?_, ?_⟩
      · intro hin
        rcases (hc n).mp hin with ⟨_, (h2 | h2)⟩
        · exact hnP h2
        · rcases hbad with hb | hb
          · exact h2.1 hb
          · exact h2.2 hb
      · intro hin
        rcases (hn n).mp hin with ⟨_, _, h3, h4⟩
        rcases hbad with hb | hb
        · exact h3 hb
        · exact h4 hb
      · intro hin
        rw [show (old_poll_run P activeRes inactiveRes
            (failLookup lkf badL) (failBuild bdf badB) ()).origmap =
            ((activeRes.getD [] ++ inactiveRes.getD []).foldl
              (check_obj (failLookup lkf badL) (failBuild bdf badB))
              ⟨P, [], [], ()⟩).origmap from rfl, horig] at hin
        exact hnP (dkeys_filter_sub hin)
    · intro n hmem hnP hbl hbb
      exact ⟨(hc n).mpr ⟨hmem, Or.inr ⟨hbl, hbb⟩⟩,
             (hn n).mpr ⟨hmem, hnP, hbl, hbb⟩⟩
    · intro n hmem hnP
      refine ⟨(hc n).mpr ⟨hmem, Or.inl hnP⟩, ?_⟩
      intro hin
      exact ((hn n).mp hin).2.1 hnP

/-- C2 witness: the amended statement at concrete inputs — an aborted bulk
pass, and a split pass where the lookup for `b` raises while `a` (unknown)
and `p` (previously known) are still processed. -/
theorem C2_partial_failure_witness :
    new_poll_run (K := String) (R := Nat) (fun s => s) []
        (some ["a"]) (fun _ _ _ => none) () = none ∧
    ("b" ∉ dkeys (old_poll_run (K := String) (R := Nat) [("p", 5)]
        (some ["a", "b"]) (some ["p"])
        (failLookup (fun _ => ()) ["b"]) (failBuild (fun _ _ => 0) [])
        ()).current ∧
     "b" ∉ dkeys (old_poll_run (K := String) (R := Nat) [("p", 5)]
        (some ["a", "b"]) (some ["p"])
        (failLookup (fun _ => ()) ["b"]) (failBuild (fun _ _ => 0) [])
        ()).new ∧
     "b" ∉ dkeys (old_poll_run (K := String) (R := Nat) [("p", 5)]
        (some ["a", "b"]) (some ["p"])
        (failLookup (fun _ => ()) ["b"]) (failBuild (fun _ _ => 0) [])
        ()).origmap) ∧
    ("a" ∈ dkeys (old_poll_run (K := String) (R := Nat) [("p", 5)]
        (some ["a", "b"]) (some ["p"])
        (failLookup (fun _ => ()) ["b"]) (failBuild (fun _ _ => 0) [])
        ()).current ∧
     "a" ∈ dkeys (old_poll_run (K := String) (R := Nat) [("p", 5)]
        (some ["a", "b"]) (some ["p"])
        (failLookup (fun _ => ()) ["b"]) (failBuild (fun _ _ => 0) [])
        ()).new) ∧
    ("p" ∈ dkeys (old_poll_run (K := String) (R := Nat) [("p", 5)]
        (some ["a", "b"]) (some ["p"])
        (failLookup (fun _ => ()) ["b"]) (failBuild (fun _ _ => 0) [])
        ()).current ∧
     "p" ∉ dkeys (old_poll_run (K := String) (R := Nat) [("p", 5)]
        (some ["a", "b"]) (some ["p"])
        (failLookup (fun _ => ()) ["b"]) (failBuild (fun _ _ => 0) [])
        ()).new) := by
  refine ⟨?_, ?_, ?_, ?_⟩
  · exact (C2_partial_failure (B := Unit)).1 (fun s => s)
      (fun _ _ _ => none) [] "a" [] (by decide) rfl
  · exact ((C2_partial_failure (A := Unit)).2 (fun _ => ())
      (fun _ _ => 0) ["b"] [] [("p", 5)] (some ["a", "b"]) (some ["p"])
      (by decide) (by decide)).1 "b" (by decide) (by decide)
      (Or.inl (by decide))
  · exact ((C2_partial_failure (A := Unit)).2 (fun _ => ())
      (fun _ _ => 0) ["b"] [] [("p", 5)] (some ["a", "b"]) (some ["p"])
      (by decide) (by decide)).2.1 "a" (by decide) (by decide)
      (by decide) (by decide)
  · exact ((C2_partial_failure (A := Unit)).2 (fun _ => ())
      (fun _ _ => 0) ["b"] [] [("p", 5)] (some ["a", "b"]) (some ["p"])
      (by decide) (by decide)).2.2 "p" (by decide) (by decide)

/-! ### Claim C5 -/

/-- C5, counterexample to the claim as stated: with the duplicate-keyed
listing `F = [a, a]` and `P = {}`, the builder is invoked twice for the
single key `a` of `F \ P` (the invocation trace is `[a, a]`), not exactly
once. -/
theorem C5_cx_duplicate_build_count :
    new_poll_run (K := String) (R := Nat) (fun s => s) [] (some ["a", "a"])
        (traceBuild (fun _ _ (s : Unit) => (1, s))) ((), []) =
      some ⟨[], [("a", 1)], [("a", 1)], ((), ["a", "a"])⟩ ∧
    ¬ (["a", "a"].count "a" = 1) := ⟨rfl, by decide⟩

/-- C5 (amended): for distinct-keyed snapshots and listings.  Bulk path:
with a never-raising builder whose invocations are traced, the trace built
by `_new_poll_helper` counts exactly one invocation for each key of the
listing absent from the snapshot and zero invocations for every other key.
Split path: `_old_poll_helper`'s per-name lookup is invoked exactly on the
listed names absent from the snapshot, in listing order — in particular
never for a previously known name. -/
theorem C5_builder_invocations {A σ B : Type} :
    (∀ (nameOf : A → K) (g : A → K → σ → R × σ) (P : List (K × R))
        (objs : List A) (s0 : σ),
      (dkeys P).Nodup → (objs.map nameOf).Nodup →
      ∃ st', new_poll_run nameOf P (some objs)
          (traceBuild g) (s0, []) = some st' ∧
        ∀ k, st'.bs.2.count k =
          if k ∈ objs.map nameOf ∧ k ∉ dkeys P then 1 else 0) ∧
    (∀ (lkf : K → B) (bdf : B → K → R) (P : List (K × R))
        (activeRes inactiveRes : Option (List K)),
      (dkeys P).Nodup →
      (activeRes.getD [] ++ inactiveRes.getD []).Nodup →
      (old_poll_run P activeRes inactiveRes (traceLookup lkf)
          (passBuild bdf) []).bs =
        (activeRes.getD [] ++ inactiveRes.getD []).filter
          (fun n => !(dmem P n)) ∧
      ∀ n ∈ (old_poll_run P activeRes inactiveRes (traceLookup lkf)
          (passBuild bdf) []).bs, n ∉ dkeys P) := by
  constructor
  · intro nameOf g P objs s0 hP hF
    obtain ⟨st', hloop⟩ := new_poll_loop_total nameOf
      (fun o k s => ((g o k s.1).1, ((g o k s.1).2, s.2 ++ [k]))) objs
      ⟨P, [], [], (s0, [])⟩
    have hloop' : new_poll_loop nameOf (traceBuild g) objs
        ⟨P, [], [], (s0, [])⟩ = some st' := hloop
    refine ⟨st', ?_, ?_⟩
    · rw [new_poll_run, Option.getD_some]
      exact hloop'
    · intro k
      have htr := new_poll_loop_trace nameOf g objs _ _ hloop' hP hF
      simp only [List.nil_append] at htr
      have hb : ((!dmem P k) = true) ↔ k ∉ dkeys P := by
        cases hd : dmem P k with
        | true => simp [dmem_iff.mp hd]
        | false => simp [dmem_false_iff.mp hd]
      rw [htr, count_filter_nodup hF]
      exact if_congr (and_congr_right fun _ => hb) rfl rfl
  · intro lkf bdf P activeRes inactiveRes hP hN
    have htr := old_poll_fold_lookup_trace lkf bdf
      (activeRes.getD [] ++ inactiveRes.getD []) ⟨P, [], [], []⟩ hP hN
    have htr' : (old_poll_run P activeRes inactiveRes (traceLookup lkf)
        (passBuild bdf) []).bs =
        (activeRes.getD [] ++ inactiveRes.getD []).filter
          (fun n => !(dmem P n)) := by
      rw [old_poll_run]
      simpa using htr
    refine ⟨htr', ?_⟩
    intro n hn
    rw [htr'] at hn
    have := (List.mem_filter.mp hn).2
    rw [Bool.not_eq_eq_eq_not, Bool.not_true] at this
    exact dmem_false_iff.mp this

/-- C5 witness: the amended statement at concrete inputs. -/
theorem C5_builder_invocations_witness :
    (∃ st', new_poll_run (K := String) (R := Nat) (fun s => s)
        [("a", 5)] (some ["a", "b"])
        (traceBuild (fun _ _ (s : Unit) => (1, s))) ((), []) = some st' ∧
      ∀ k, st'.bs.2.count k =
        if k ∈ ["a", "b"].map (fun s => s) ∧
            k ∉ dkeys ([("a", 5)] : List (String × Nat)) then 1 else 0) ∧
    ((old_poll_run (K := String) (R := Nat) [("a", 5)] (some ["a", "b"])
        (some ["c"]) (traceLookup (fun _ => ()))
        (passBuild (fun _ _ => 0)) []).bs =
      (["a", "b"] ++ ["c"]).filter
        (fun n => !(dmem ([("a", 5)] : List (String × Nat)) n)) ∧
     ∀ n ∈ (old_poll_run (K := String) (R := Nat) [("a", 5)]
        (some ["a", "b"]) (some ["c"]) (traceLookup (fun _ => ()))
        (passBuild (fun _ _ => 0)) []).bs,
       n ∉ dkeys ([("a", 5)] : List (String × Nat))) := by
  constructor
  · exact (C5_builder_invocations (B := Unit)).1 (fun s => s)
      (fun _ _ s => (1, s)) [("a", 5)] ["a", "b"] () (by decide) (by decide)
  · exact (C5_builder_invocations (A := Unit) (σ := Unit)).2
      (fun _ => ()) (fun _ _ => 0) [("a", 5)] (some ["a", "b"])
      (some ["c"]) (by decide) (by decide)

/-! ### Claim C8 -/

/-- C8, counterexample to the claim as stated: with the duplicate-keyed
listing `F = [a, a]` and `P = {a: 5}`, the first occurrence of `a` retains
the old record and deletes it from the working map, and the second
occurrence REBUILDS `a`, so `current` holds the rebuilt record `1`, not
the previous record `5`. -/
theorem C8_cx_duplicate_rebuild :
    new_poll_run (K := String) (R := Nat) (σ := Unit) (fun s => s)
        [("a", 5)] (some ["a", "a"]) (fun _ _ s => some (1, s)) () =
      some ⟨[], [("a", 1)], [("a", 1)], ()⟩ ∧
    ¬ (dget ([("a", 1)] : List (String × Nat)) "a" =
        dget [("a", 5)] "a") := ⟨rfl, by decide⟩

/-- C8 (amended): for distinct-keyed snapshots and listings, every key
present in both the previous snapshot and the fresh listing is mapped in
`current` to exactly the record the snapshot held for it (never rebuilt) —
in the bulk path (whenever the pass returns, first conjunct) and in the
split path (regardless of lookup/build failures, second conjunct). -/
theorem C8_record_reuse {A σ B τ : Type} :
    (∀ (nameOf : A → K) (f : A → K → σ → Option (R × σ))
        (P : List (K × R)) (objs : List A) (s0 : σ)
        (st' : PollSt K R σ),
      new_poll_run nameOf P (some objs) f s0 = some st' →
      (dkeys P).Nodup → (objs.map nameOf).Nodup →
      ∀ k, k ∈ dkeys P → k ∈ objs.map nameOf →
        dget st'.current k = dget P k) ∧
    (∀ (l : K → τ → Option (B × τ))
        (b : B → K → τ → Option (R × τ)) (P : List (K × R))
        (activeRes inactiveRes : Option (List K)) (s0 : τ),
      (dkeys P).Nodup →
      (activeRes.getD [] ++ inactiveRes.getD []).Nodup →
      ∀ k, k ∈ dkeys P → k ∈ activeRes.getD [] ++ inactiveRes.getD [] →
        dget (old_poll_run P activeRes inactiveRes l b s0).current k =
          dget P k) := by
  constructor
  · intro nameOf f P objs s0 st' hrun hP hF k hkP hkF
    rw [new_poll_run, Option.getD_some] at hrun
    exact new_poll_loop_retained_get nameOf f objs _ _ hrun hP hF k hkP hkF
  · intro l b P activeRes inactiveRes s0 hP hN k hkP hkF
    exact old_poll_fold_retained_get l b
      (activeRes.getD [] ++ inactiveRes.getD []) ⟨P, [], [], s0⟩
      hP hN k hkP hkF

/-- C8 witness: record reuse at concrete inputs on both paths. -/
theorem C8_record_reuse_witness :
    dget ([("b", 1), ("a", 5)] : List (String × Nat)) "a" =
      dget [("a", 5)] "a" ∧
    dget (old_poll_run (K := String) (R := Nat) [("a", 5)]
        (some ["a", "b"]) (some [])
        (fun _ (s : Unit) => some ((), s))
        (fun _ _ (s : Unit) => some (9, s)) ()).current "a" =
      dget [("a", 5)] "a" := by
  constructor
  · exact (C8_record_reuse (B := Unit) (τ := Unit)).1 (fun s => s)
      (fun _ _ (s : Unit) => some (1, s)) [("a", 5)] ["b", "a"] ()
      ⟨[], [("b", 1), ("a", 5)], [("b", 1)], ()⟩ (by rfl) (by decide)
      (by decide) "a" (by decide) (by decide)
  · exact (C8_record_reuse (A := Unit) (σ := Unit)).2
      (fun _ (s : Unit) => some ((), s)) (fun _ _ (s : Unit) => some (9, s))
      [("a", 5)] (some ["a", "b"]) (some []) () (by decide) (by decide)
      "a" (by decide) (by decide)

/-! ### Claim C10 -/

/-- C10: in the legacy fallback path, `fetch_volumes` and `fetch_nodedevs`
pass an `inactive_list` returning `[]`, so the partition is determined by
the active listing alone: the caller's map retains (and the pass reports
removed) exactly the previously known entries whose keys are absent from
the active listing, and every key of `current` and of `new` comes from the
active listing — no inactive object is ever observed, built or retained.
-/
theorem C10_legacy_active_only {A σ : Type} (P : List (K × R))
    (activeRes : Option (List K)) (l : K → σ → Option (A × σ))
    (b : A → K → σ → Option (R × σ)) (s0 : σ)
    (hP : (dkeys P).Nodup) :
    ((fetch_volumes_old P activeRes l b s0).origmap =
      P.filter (fun p => decide (p.1 ∉ activeRes.getD [])) ∧
     (∀ k ∈ dkeys (fetch_volumes_old P activeRes l b s0).current,
       k ∈ activeRes.getD []) ∧
     (∀ k ∈ dkeys (fetch_volumes_old P activeRes l b s0).new,
       k ∈ activeRes.getD [])) ∧
    ((fetch_nodedevs_old P activeRes l b s0).origmap =
      P.filter (fun p => decide (p.1 ∉ activeRes.getD [])) ∧
     (∀ k ∈ dkeys (fetch_nodedevs_old P activeRes l b s0).current,
       k ∈ activeRes.getD []) ∧
     (∀ k ∈ dkeys (fetch_nodedevs_old P activeRes l b s0).new,
       k ∈ activeRes.getD [])) := by
  have hrw : ∀ st : PollSt K R σ,
      old_poll_run P activeRes (some []) l b s0 = st →
      st.origmap = P.filter (fun p => decide (p.1 ∉ activeRes.getD [])) ∧
      (∀ k ∈ dkeys st.current, k ∈ activeRes.getD []) ∧
      (∀ k ∈ dkeys st.new, k ∈ activeRes.getD []) := by
    intro st hst
    subst hst
    rw [old_poll_run]
    simp only [Option.getD_some, List.append_nil]
    refine ⟨old_poll_fold_origmap l b (activeRes.getD [])
      ⟨P, [], [], s0⟩ hP, ?_, ?_⟩
    · intro k hk
      rcases old_poll_fold_current_sub l b (activeRes.getD [])
        ⟨P, [], [], s0⟩ k hk with h1 | h1
      · exact absurd h1 (by simp [dkeys])
      · exact h1
    · intro k hk
      rcases old_poll_fold_new_sub l b (activeRes.getD [])
        ⟨P, [], [], s0⟩ k hk with h1 | h1
      · exact absurd h1 (by simp [dkeys])
      · exact h1
  exact ⟨hrw _ rfl, hrw _ rfl⟩

/-- C10 witness: the statement at a concrete input (`b` previously known
but not in the active listing is removed; `a` retained; `c` new). -/
theorem C10_legacy_active_only_witness :
    ((fetch_volumes_old (K := String) (R := Nat) (σ := Unit)
        [("a", 5), ("b", 6)] (some ["a", "c"])
        (fun _ s => some ((), s)) (fun _ _ s => some (9, s)) ()).origmap =
      [("a", 5), ("b", 6)].filter
        (fun p => decide (p.1 ∉ (some ["a", "c"]).getD [])) ∧
     (∀ k ∈ dkeys (fetch_volumes_old (K := String) (R := Nat) (σ := Unit)
        [("a", 5), ("b", 6)] (some ["a", "c"])
        (fun _ s => some ((), s)) (fun _ _ s => some (9, s)) ()).current,
       k ∈ (some ["a", "c"]).getD []) ∧
     (∀ k ∈ dkeys (fetch_volumes_old (K := String) (R := Nat) (σ := Unit)
        [("a", 5), ("b", 6)] (some ["a", "c"])
        (fun _ s => some ((), s)) (fun _ _ s => some (9, s)) ()).new,
       k ∈ (some ["a", "c"]).getD [])) ∧
    ((fetch_nodedevs_old (K := String) (R := Nat) (σ := Unit)
        [("a", 5), ("b", 6)] (some ["a", "c"])
        (fun _ s => some ((), s)) (fun _ _ s => some (9, s)) ()).origmap =
      [("a", 5), ("b", 6)].filter
        (fun p => decide (p.1 ∉ (some ["a", "c"]).getD [])) ∧
     (∀ k ∈ dkeys (fetch_nodedevs_old (K := String) (R := Nat) (σ := Unit)
        [("a", 5), ("b", 6)] (some ["a", "c"])
        (fun _ s => some ((), s)) (fun _ _ s => some (9, s)) ()).current,
       k ∈ (some ["a", "c"]).getD []) ∧
     (∀ k ∈ dkeys (fetch_nodedevs_old (K := String) (R := Nat) (σ := Unit)
        [("a", 5), ("b", 6)] (some ["a", "c"])
        (fun _ s => some ((), s)) (fun _ _ s => some (9, s)) ()).new,
       k ∈ (some ["a", "c"]).getD [])) :=
  C10_legacy_active_only [("a", 5), ("b", 6)] (some ["a", "c"])
    (fun _ s => some ((), s)) (fun _ _ s => some (9, s)) () (by decide)

/-! ### Lemmas about `_old_fetch_vms` -/

theorem dget_mem {m : List (K × R)} {k : K} {v : R}
    (h : dget m k = some v) : (k, v) ∈ m := by
  induction m with
  | nil => simp [dget] at h
  | cons p rest ih =>
      obtain ⟨k', v'⟩ := p
      by_cases h2 : k' = k
      · subst h2
        rw [dget, if_pos rfl, Option.some.injEq] at h
        subst h
        exact List.mem_cons_self _ _
      · rw [dget, if_neg h2] at h
        exact List.mem_cons_of_mem _ (ih h)

theorem mem_dinsert {m : List (K × R)} {k : K} {v : R} {q : K × R}
    (h : q ∈ dinsert m k v) : q = (k, v) ∨ q ∈ m := by
  induction m with
  | nil => simpa [dinsert] using h
  | cons p rest ih =>
      obtain ⟨k', v'⟩ := p
      by_cases h2 : k' = k
      · subst h2
        rw [dinsert, if_pos rfl] at h
        rcases List.mem_cons.mp h with h3 | h3
        · exact Or.inl h3
        · exact Or.inr (List.mem_cons_of_mem _ h3)
      · rw [dinsert, if_neg h2] at h
        rcases List.mem_cons.mp h with h3 | h3
        · exact Or.inr (h3 ▸ List.mem_cons_self _ _)
        · rcases ih h3 with h4 | h4
          · exact Or.inl h4
          · exact Or.inr (List.mem_cons_of_mem _ h4)

theorem mem_ddel_ne {m : List (K × R)} {k : K} {q : K × R}
    (hq : q ∈ m) (hne : q.1 ≠ k) : q ∈ ddel m k := by
  induction m with
  | nil => simp at hq
  | cons p rest ih =>
      obtain ⟨k', v'⟩ := p
      by_cases h2 : k' = k
      · subst h2
        rw [ddel, if_pos rfl]
        rcases List.mem_cons.mp hq with h3 | h3
        · exact absurd (by rw [h3]) hne
        · exact h3
      · rw [ddel, if_neg h2]
        rcases List.mem_cons.mp hq with h3 | h3
        · exact h3 ▸ List.mem_cons_self _ _
        · exact List.mem_cons_of_mem _ (ih h3)

theorem build_old_maps_fold_mem (is_active : R → Bool)
    (get_id : R → Nat) (get_name : R → K) :
    ∀ (m : List (K × R)) (acc : List (Nat × R) × List (K × R)),
      (∀ q ∈ (m.foldl (fun acc p =>
          if is_active p.2 then (dinsert acc.1 (get_id p.2) p.2, acc.2)
          else (acc.1, dinsert acc.2 (get_name p.2) p.2)) acc).1,
        q ∈ acc.1 ∨ ∃ p ∈ m, q.2 = p.2) ∧
      (∀ q ∈ (m.foldl (fun acc p =>
          if is_active p.2 then (dinsert acc.1 (get_id p.2) p.2, acc.2)
          else (acc.1, dinsert acc.2 (get_name p.2) p.2)) acc).2,
        q ∈ acc.2 ∨ ∃ p ∈ m, q.2 = p.2 ∧ q.1 = get_name p.2) := by
  intro m
  induction m with
  | nil => intro acc; exact ⟨fun q hq => Or.inl hq, fun q hq => Or.inl hq⟩
  | cons p rest ih =>
      intro acc
      rw [List.foldl_cons]
      constructor
      · intro q hq
        rcases (ih _).1 q hq with h1 | h1
        · by_cases ha : is_active p.2
          · rw [if_pos ha] at h1
            rcases mem_dinsert h1 with h2 | h2
            · exact Or.inr ⟨p, List.mem_cons_self _ _, by rw [h2]⟩
            · exact Or.inl h2
          · rw [if_neg ha] at h1
            exact Or.inl h1
        · obtain ⟨p', hp', he⟩ := h1
          exact Or.inr ⟨p', List.mem_cons_of_mem _ hp', he⟩
      · intro q hq
        rcases (ih _).2 q hq with h1 | h1
        · by_cases ha : is_active p.2
          · rw [if_pos ha] at h1
            exact Or.inl h1
          · rw [if_neg ha] at h1
            rcases mem_dinsert h1 with h2 | h2
            · exact Or.inr ⟨p, List.mem_cons_self _ _, by rw [h2], by rw [h2]⟩
            · exact Or.inl h2
        · obtain ⟨p', hp', he⟩ := h1
          exact Or.inr ⟨p', List.mem_cons_of_mem _ hp', he⟩

theorem build_old_maps_active_val {is_active : R → Bool}
    {get_id : R → Nat} {get_name : R → K} {m : List (K × R)}
    {q : Nat × R}
    (h : q ∈ (build_old_maps is_active get_id get_name m).1) :
    ∃ p ∈ m, q.2 = p.2 := by
  rcases (build_old_maps_fold_mem is_active get_id get_name m
      ([], [])).1 q h with h1 | h1
  · simp at h1
  · exact h1

theorem build_old_maps_inactive_entry {is_active : R → Bool}
    {get_id : R → Nat} {get_name : R → K} {m : List (K × R)}
    {q : K × R}
    (h : q ∈ (build_old_maps is_active get_id get_name m).2) :
    (∃ p ∈ m, q.2 = p.2) ∧ q.1 = get_name q.2 := by
  rcases (build_old_maps_fold_mem is_active get_id get_name m
      ([], [])).2 q h with h1 | h1
  · simp at h1
  · obtain ⟨p, hp, he, hk⟩ := h1
    exact ⟨⟨p, hp, he⟩, by rw [hk, he]⟩

/-! ### Claim C3 -/

/-- A concrete VM record carrying exactly the state `_old_fetch_vms`
inspects (`is_active`, `get_id`, `get_name`) plus a tag distinguishing
records built at different times. -/
structure VMR where
  active : Bool
  vid : Nat
  vname : String
  tag : Nat
deriving DecidableEq

/-- C3, counterexample to the claim as stated: previous snapshot
`{"vm1" ↦ (active, ID 7, tag 0)}`, fresh poll with active-ID list `[]`
and inactive-name list `["vm1"]`, lookup succeeding and the builder
producing a fresh record (tag 99).  `check_new` finds `"vm1"` in the
name-keyed `origmap` and REUSES the old active record: the result has
`current = {"vm1" ↦ old record}`, `new = []`, `removed = []` — the fresh
record is not built into `new` and the old record is not in `removed`,
contradicting the claim. -/
theorem C3_cx_old_record_reused :
    old_fetch_vms (K := String) (R := VMR) (W := Nat)
        VMR.active VMR.vid VMR.vname
        [("vm1", ⟨true, 7, "vm1", 0⟩)]
        (some []) (some ["vm1"])
        (fun _ => none) (fun _ => "") (fun _ => some 0)
        (fun _ _ => some ⟨false, 0, "vm1", 99⟩) =
      some ⟨[], [("vm1", ⟨true, 7, "vm1", 0⟩)], []⟩ ∧
    (⟨false, 0, "vm1", 99⟩ : VMR) ∉ dvalues ([] : List (String × VMR)) ∧
    (⟨true, 7, "vm1", 0⟩ : VMR) ∉ dvalues ([] : List (String × VMR)) :=
  ⟨rfl, by decide, by decide⟩

/-- C3 (amended): `check_new` keys the previous snapshot by name, so a VM
that changed power state between polls is located by name in `origmap` and
its OLD record is reused: it appears exactly once in `current` (as the old
record), and in neither `new` nor `removed`; the builder's output is
discarded from the result.  This holds in both directions: an
active-with-ID-i record re-observed as an inactive name (first conjunct),
and an inactive record re-observed through a fresh active ID (second
conjunct). -/
theorem C3_state_transition_reuses_record {R W : Type}
    (is_active : R → Bool) (get_id : R → Nat) (get_name : R → K)
    (vmOld : R) (raw : W) (i : Nat)
    (lookupByID : Nat → Option W) (rawName : W → K)
    (lookupByName : K → Option W) (build1 build2 : W → K → Option R) :
    (is_active vmOld = true →
      lookupByName (get_name vmOld) = some raw →
      old_fetch_vms is_active get_id get_name
          [(get_name vmOld, vmOld)] (some []) (some [get_name vmOld])
          lookupByID rawName lookupByName build1 =
        some ⟨[], [(get_name vmOld, vmOld)], []⟩) ∧
    (is_active vmOld = false →
      lookupByID i = some raw → rawName raw = get_name vmOld →
      old_fetch_vms is_active get_id get_name
          [(get_name vmOld, vmOld)] (some [i]) (some [])
          lookupByID rawName lookupByName build2 =
        some ⟨[], [(get_name vmOld, vmOld)], []⟩) := by
  constructor
  · intro hact hlook
    have hmaps : build_old_maps is_active get_id get_name
        [(get_name vmOld, vmOld)] =
        ([(get_id vmOld, vmOld)], []) := by
      simp [build_old_maps, hact, dinsert]
    rw [old_fetch_vms]
    rw [hmaps]
    simp [foldl_opt, vm_inactive_step, check_new, dget, ddel, dinsert,
      hlook]
  · intro hact hlook hname
    have hmaps : build_old_maps is_active get_id get_name
        [(get_name vmOld, vmOld)] =
        ([], [(get_name vmOld, vmOld)]) := by
      simp [build_old_maps, hact, dinsert]
    rw [old_fetch_vms]
    rw [hmaps]
    simp [foldl_opt, vm_active_step, check_new, dget, ddel, dinsert,
      hlook, hname]

/-- C3 witness: the amended statement at a concrete input, in both
directions. -/
theorem C3_state_transition_reuses_record_witness :
    old_fetch_vms (K := String) (R := VMR) (W := Nat)
        VMR.active VMR.vid VMR.vname
        [("vm1", ⟨true, 7, "vm1", 0⟩)] (some []) (some ["vm1"])
        (fun _ => none) (fun _ => "") (fun _ => some 3)
        (fun _ _ => some ⟨false, 0, "vm1", 99⟩) =
      some ⟨[], [("vm1", ⟨true, 7, "vm1", 0⟩)], []⟩ ∧
    old_fetch_vms (K := String) (R := VMR) (W := Nat)
        VMR.active VMR.vid VMR.vname
        [("vm1", ⟨false, 0, "vm1", 1⟩)] (some [3]) (some [])
        (fun _ => some 4) (fun _ => "vm1") (fun _ => none)
        (fun _ _ => some ⟨true, 3, "vm1", 99⟩) =
      some ⟨[], [("vm1", ⟨false, 0, "vm1", 1⟩)], []⟩ := by
  constructor
  · exact (C3_state_transition_reuses_record VMR.active VMR.vid VMR.vname
      (⟨true, 7, "vm1", 0⟩ : VMR) (3 : Nat) 0 (fun _ => none) (fun _ => "")
      (fun _ => some 3) (fun _ _ => some ⟨false, 0, "vm1", 99⟩)
      (fun _ _ => some ⟨false, 0, "vm1", 99⟩)).1 rfl rfl
  · exact (C3_state_transition_reuses_record VMR.active VMR.vid VMR.vname
      (⟨false, 0, "vm1", 1⟩ : VMR) (4 : Nat) 3 (fun _ => some 4)
      (fun _ => "vm1") (fun _ => none)
      (fun _ _ => some ⟨true, 3, "vm1", 99⟩)
      (fun _ _ => some ⟨true, 3, "vm1", 99⟩)).2 rfl rfl rfl

/-! ### Claim C9 -/

/-- The snapshot key that one entry of `newActiveIDs` claims in
`_old_fetch_vms`: the retained record's name when the ID matches
`oldActiveIDs`, otherwise the name derived from a successful
`lookupByID` (`none` when the lookup raises: the entry is skipped and
claims nothing). -/
def vm_obs_key {W : Type} (get_name : R → K)
    (lookupByID : Nat → Option W) (rawName : W → K)
    (oldActiveIDs : List (Nat × R)) (i : Nat) : Option K :=
  match dget oldActiveIDs i with
  | some vm => some (get_name vm)
  | none => (lookupByID i).map rawName

theorem vm_active_fold_safe {W : Type} (get_name : R → K)
    (lookupByID : Nat → Option W) (rawName : W → K)
    (build_func : W → K → Option R) (oldA : List (Nat × R))
    (P : List (K × R))
    (hvals : ∀ q ∈ oldA, (get_name q.2, q.2) ∈ P) :
    ∀ (ids : List Nat) (done : List K) (st : VMSt K R),
      (∀ q ∈ P, q.1 ∉ done → q ∈ st.origmap) →
      (done ++ ids.filterMap
        (vm_obs_key get_name lookupByID rawName oldA)).Nodup →
      ∃ st', foldl_opt (vm_active_step get_name lookupByID rawName
          build_func oldA) ids st = some st' ∧
        (∀ q ∈ P, q.1 ∉ done ++ ids.filterMap
            (vm_obs_key get_name lookupByID rawName oldA) →
          q ∈ st'.origmap) := by
  intro ids
  induction ids with
  | nil =>
      intro done st hinv _
      exact ⟨st, rfl, by simpa using hinv⟩
  | cons i rest ih =>
      intro done st hinv hnd
      cases hA : dget oldA i with
      | some vm =>
          have hobs : vm_obs_key get_name lookupByID rawName oldA i =
              some (get_name vm) := by rw [vm_obs_key, hA]
          rw [List.filterMap_cons, hobs] at hnd ⊢
          have hPq : (get_name vm, vm) ∈ P := hvals (i, vm) (dget_mem hA)
          have hkd : get_name vm ∉ done := by
            intro hc
            exact (List.disjoint_of_nodup_append hnd) hc
              (List.mem_cons_self _ _)
          have hmemq : (get_name vm, vm) ∈ st.origmap := hinv _ hPq hkd
          have hdm : dmem st.origmap (get_name vm) = true := by
            rw [dmem_iff]
            exact List.mem_map.mpr ⟨_, hmemq, rfl⟩
          have hstep : vm_active_step get_name lookupByID rawName
              build_func oldA st i =
              some ⟨ddel st.origmap (get_name vm),
                    dinsert st.current (get_name vm) vm, st.new⟩ := by
            simp only [vm_active_step, hA, add_vm, hdm, if_true]
          have hnd2 : ((done ++ [get_name vm]) ++
              rest.filterMap (vm_obs_key get_name lookupByID rawName
                oldA)).Nodup := by
            rw [List.append_assoc, List.singleton_append]
            exact hnd
          obtain ⟨st', hfold, hinv'⟩ := ih (done ++ [get_name vm])
            ⟨ddel st.origmap (get_name vm),
             dinsert st.current (get_name vm) vm, st.new⟩
            (by
              intro q hq hq2
              simp only [List.mem_append, List.mem_singleton, not_or] at hq2
              exact mem_ddel_ne (hinv q hq hq2.1) hq2.2)
            hnd2
          refine ⟨st', ?_, ?_⟩
          · simp only [foldl_opt, hstep]
            exact hfold
          · intro q hq hq2
            apply hinv' q hq
            rw [List.append_assoc, List.singleton_append]
            exact hq2
      | none =>
          cases hL : lookupByID i with
          | none =>
              have hobs : vm_obs_key get_name lookupByID rawName oldA i =
                  none := by rw [vm_obs_key, hA, hL]; rfl
              rw [List.filterMap_cons, hobs] at hnd ⊢
              have hstep : vm_active_step get_name lookupByID rawName
                  build_func oldA st i = some st := by
                simp only [vm_active_step, hA, hL]
              obtain ⟨st', hfold, hinv'⟩ := ih done st hinv hnd
              refine ⟨st', ?_, hinv'⟩
              simp only [foldl_opt, hstep]
              exact hfold
          | some raw =>
              have hobs : vm_obs_key get_name lookupByID rawName oldA i =
                  some (rawName raw) := by rw [vm_obs_key, hA, hL]; rfl
              rw [List.filterMap_cons, hobs] at hnd ⊢
              have hnd2 : ((done ++ [rawName raw]) ++
                  rest.filterMap (vm_obs_key get_name lookupByID rawName
                    oldA)).Nodup := by
                rw [List.append_assoc, List.singleton_append]
                exact hnd
              have horig : ∀ q ∈ P, q.1 ∉ done ++ [rawName raw] →
                  q ∈ (check_new build_func st raw (rawName raw)).origmap := by
                intro q hq hq2
                simp only [List.mem_append, List.mem_singleton, not_or] at hq2
                have hq3 := hinv q hq hq2.1
                rw [check_new]
                cases hg : dget st.origmap (rawName raw) with
                | some vm2 => exact mem_ddel_ne hq3 hq2.2
                | none =>
                    cases hb : build_func raw (rawName raw) with
                    | none => exact hq3
                    | some vmb => exact hq3
              have hstep : vm_active_step get_name lookupByID rawName
                  build_func oldA st i =
                  some (check_new build_func st raw (rawName raw)) := by
                simp only [vm_active_step, hA, hL]
              obtain ⟨st', hfold, hinv'⟩ := ih (done ++ [rawName raw])
                (check_new build_func st raw (rawName raw)) horig hnd2
              refine ⟨st', ?_, ?_⟩
              · simp only [foldl_opt, hstep]
                exact hfold
              · intro q hq hq2
                apply hinv' q hq
                rw [List.append_assoc, List.singleton_append]
                exact hq2

theorem vm_inactive_fold_safe {W : Type} (get_name : R → K)
    (lookupByName : K → Option W)
    (build_func : W → K → Option R) (oldI : List (K × R))
    (P : List (K × R))
    (hent : ∀ q ∈ oldI, q.1 = get_name q.2 ∧ (get_name q.2, q.2) ∈ P) :
    ∀ (names : List K) (done : List K) (st : VMSt K R),
      (∀ q ∈ P, q.1 ∉ done → q ∈ st.origmap) →
      (done ++ names).Nodup →
      ∃ st', foldl_opt (vm_inactive_step get_name lookupByName
          build_func oldI) names st = some st' ∧
        (∀ q ∈ P, q.1 ∉ done ++ names → q ∈ st'.origmap) := by
  intro names
  induction names with
  | nil =>
      intro done st hinv _
      exact ⟨st, rfl, by simpa using hinv⟩
  | cons n rest ih =>
      intro done st hinv hnd
      have hnd2 : ((done ++ [n]) ++ rest).Nodup := by
        rw [List.append_assoc, List.singleton_append]
        exact hnd
      cases hI : dget oldI n with
      | some vm =>
          obtain ⟨hkn, hPq⟩ := hent (n, vm) (dget_mem hI)
          have hkn' : get_name vm = n := hkn.symm
          have hkd : n ∉ done := by
            intro hc
            exact (List.disjoint_of_nodup_append hnd) hc
              (List.mem_cons_self _ _)
          have hmemq : (n, vm) ∈ st.origmap :=
            hinv _ (by rw [← hkn'] at hPq ⊢; exact hPq) hkd
          have hdm : dmem st.origmap (get_name vm) = true := by
            rw [dmem_iff, hkn']
            exact List.mem_map.mpr ⟨_, hmemq, rfl⟩
          have hstep : vm_inactive_step get_name lookupByName
              build_func oldI st n =
              some ⟨ddel st.origmap (get_name vm),
                    dinsert st.current (get_name vm) vm, st.new⟩ := by
            simp only [vm_inactive_step, hI, add_vm, hdm, if_true]
          obtain ⟨st', hfold, hinv'⟩ := ih (done ++ [n])
            ⟨ddel st.origmap (get_name vm),
             dinsert st.current (get_name vm) vm, st.new⟩
            (by
              intro q hq hq2
              simp only [List.mem_append, List.mem_singleton, not_or] at hq2
              refine mem_ddel_ne (hinv q hq hq2.1) ?_
              rw [hkn']
              exact hq2.2)
            hnd2
          refine ⟨st', ?_, ?_⟩
          · simp only [foldl_opt, hstep]
            exact hfold
          · intro q hq hq2
            apply hinv' q hq
            rw [List.append_assoc, List.singleton_append]
            exact hq2
      | none =>
          cases hL : lookupByName n with
          | none =>
              have hstep : vm_inactive_step get_name lookupByName
                  build_func oldI st n = some st := by
                simp only [vm_inactive_step, hI, hL]
              obtain ⟨st', hfold, hinv'⟩ := ih (done ++ [n]) st
                (by
                  intro q hq hq2
                  simp only [List.mem_append, List.mem_singleton,
                    not_or] at hq2
                  exact hinv q hq hq2.1)
                hnd2
              refine ⟨st', ?_, ?_⟩
              · simp only [foldl_opt, hstep]
                exact hfold
              · intro q hq hq2
                apply hinv' q hq
                rw [List.append_assoc, List.singleton_append]
                exact hq2
          | some raw =>
              have horig : ∀ q ∈ P, q.1 ∉ done ++ [n] →
                  q ∈ (check_new build_func st raw n).origmap := by
                intro q hq hq2
                simp only [List.mem_append, List.mem_singleton, not_or] at hq2
                have hq3 := hinv q hq hq2.1
                rw [check_new]
                cases hg : dget st.origmap n with
                | some vm2 => exact mem_ddel_ne hq3 hq2.2
                | none =>
                    cases hb : build_func raw n with
                    | none => exact hq3
                    | some vmb => exact hq3
              have hstep : vm_inactive_step get_name lookupByName
                  build_func oldI st n =
                  some (check_new build_func st raw n) := by
                simp only [vm_inactive_step, hI, hL]
              obtain ⟨st', hfold, hinv'⟩ := ih (done ++ [n])
                (check_new build_func st raw n) horig hnd2
              refine ⟨st', ?_, ?_⟩
              · simp only [foldl_opt, hstep]
                exact hfold
              · intro q hq hq2
                apply hinv' q hq
                rw [List.append_assoc, List.singleton_append]
                exact hq2

/-- C9, counterexample to the claim as stated: a snapshot in which every
record IS stored under its own name (`{"vm1" ↦ inactive record named
"vm1"}`), yet `_old_fetch_vms` still hits the unguarded
`del origmap[...]` with a missing key and raises: the backend reports the
name `"vm1"` twice in the inactive list, the first occurrence retains the
record and deletes the key, and the second occurrence's `add_vm` raises
`KeyError` — name-keying alone does not make the deletions safe. -/
theorem C9_cx_name_keyed_still_raises :
    VMR.vname (⟨false, 0, "vm1", 0⟩ : VMR) = "vm1" ∧
    old_fetch_vms (K := String) (R := VMR) (W := Nat)
        VMR.active VMR.vid VMR.vname
        [("vm1", ⟨false, 0, "vm1", 0⟩)]
        (some []) (some ["vm1", "vm1"])
        (fun _ => none) (fun _ => "") (fun _ => some 0)
        (fun _ _ => some ⟨false, 0, "vm1", 99⟩) = none :=
  ⟨rfl, rfl⟩

/-- C9 (amended): `_old_fetch_vms` requires the previous snapshot to be
keyed by record name AND the poll's derived observation keys (retained
names and looked-up names, active and inactive together) to be pairwise
distinct; under those two preconditions the unguarded deletions always
find their key and the call never raises (first conjunct).  A snapshot
keying an active VM by numeric ID instead of name makes the
retained-active branch raise an uncaught `KeyError` (second conjunct:
record named "vm1" stored under key "7", its ID 7 listed as active). -/
theorem C9_keying_precondition :
    (∀ (R W : Type) (is_active : R → Bool)
        (get_id : R → Nat) (get_name : R → K) (P : List (K × R))
        (activeRes : Option (List Nat)) (inactiveRes : Option (List K))
        (lookupByID : Nat → Option W) (rawName : W → K)
        (lookupByName : K → Option W)
        (build_func : W → K → Option R),
      (∀ p ∈ P, get_name p.2 = p.1) →
      ((activeRes.getD []).filterMap
          (vm_obs_key get_name lookupByID rawName
            (build_old_maps is_active get_id get_name P).1) ++
        inactiveRes.getD []).Nodup →
      (old_fetch_vms is_active get_id get_name P activeRes inactiveRes
          lookupByID rawName lookupByName build_func).isSome = true) ∧
    old_fetch_vms (K := String) (R := VMR) (W := Nat)
        VMR.active VMR.vid VMR.vname
        [("7", ⟨true, 7, "vm1", 0⟩)]
        (some [7]) (some [])
        (fun _ => none) (fun _ => "") (fun _ => none)
        (fun _ _ => none) = none := by
  constructor
  · intro R W is_active get_id get_name P activeRes inactiveRes
      lookupByID rawName lookupByName build_func hkeys hobs
    have hvals : ∀ q ∈ (build_old_maps is_active get_id get_name P).1,
        (get_name q.2, q.2) ∈ P := by
      intro q hq
      obtain ⟨p, hp, he⟩ := build_old_maps_active_val hq
      have := hkeys p hp
      rw [he, this]
      exact hp
    have hent : ∀ q ∈ (build_old_maps is_active get_id get_name P).2,
        q.1 = get_name q.2 ∧ (get_name q.2, q.2) ∈ P := by
      intro q hq
      obtain ⟨⟨p, hp, he⟩, hk⟩ := build_old_maps_inactive_entry hq
      refine ⟨hk, ?_⟩
      have := hkeys p hp
      rw [he, this]
      exact hp
    obtain ⟨st1, hf1, hinv1⟩ := vm_active_fold_safe get_name lookupByID
      rawName build_func _ P hvals (activeRes.getD []) [] ⟨P, [], []⟩
      (fun q hq _ => hq) (by simpa using List.Nodup.of_append_left hobs)
    obtain ⟨st2, hf2, _⟩ := vm_inactive_fold_safe get_name lookupByName
      build_func _ P hent (inactiveRes.getD [])
      ((activeRes.getD []).filterMap
        (vm_obs_key get_name lookupByID rawName
          (build_old_maps is_active get_id get_name P).1)) st1
      (by
        intro q hq hq2
        exact hinv1 q hq (by simpa using hq2))
      hobs
    rw [old_fetch_vms]
    simp only [hf1, hf2, Option.isSome_some]
  · rfl

/-- C9 witness: the amended safety statement at a concrete name-keyed
input with distinct observation keys, together with the ID-keyed
`KeyError`. -/
theorem C9_keying_precondition_witness :
    (old_fetch_vms (K := String) (R := VMR) (W := Nat)
        VMR.active VMR.vid VMR.vname
        [("vm1", ⟨true, 7, "vm1", 0⟩), ("vm2", ⟨false, 0, "vm2", 1⟩)]
        (some [7]) (some ["vm2"])
        (fun _ => none) (fun _ => "") (fun _ => none)
        (fun _ _ => none)).isSome = true ∧
    old_fetch_vms (K := String) (R := VMR) (W := Nat)
        VMR.active VMR.vid VMR.vname
        [("7", ⟨true, 7, "vm1", 0⟩)]
        (some [7]) (some [])
        (fun _ => none) (fun _ => "") (fun _ => none)
        (fun _ _ => none) = none := by
  constructor
  · exact (C9_keying_precondition (K := String)).1 VMR Nat
      VMR.active VMR.vid VMR.vname
      [("vm1", ⟨true, 7, "vm1", 0⟩), ("vm2", ⟨false, 0, "vm2", 1⟩)]
      (some [7]) (some ["vm2"])
      (fun _ => none) (fun _ => "") (fun _ => none)
      (fun _ _ => none) (by decide) (by decide)
  · exact (C9_keying_precondition (K := String)).2

end PollHelpers
